import Mathlib

/-!
Verification development for the pixelSpace visualization core.

The source is TypeScript/JavaScript.  The shallow embedding below models:
  * JS numbers as exact rationals; a value that is NaN or ±Infinity is
    modelled as `none : Option ℚ` where the distinction matters
    (feature extraction), and all magnitudes involved are far below the
    range where IEEE doubles overflow or lose integrality;
  * JS arrays as `List`s, with out-of-range reads yielding `none`
    (JS `undefined`);
  * `Math.sqrt`, `Math.exp`, `Math.log`, `Math.pow`, `Math.cos`, `Math.sin`
    as parameters of the definitions that use them (their exact values are
    irrational; every theorem below either holds for all interpretations or
    evaluates code paths that do not depend on them);
  * `Math.random` as an ambient stream `ℕ → ℚ` consumed one draw at a time
    by an explicit counter, and `self.postMessage` as appending to an
    explicit message trace.
-/

set_option maxRecDepth 8000

namespace PixelSpace

/-- JS `Math.round`: round half toward positive infinity. -/
def jsRound (q : ℚ) : ℤ := Rat.floor (q + 1/2)

/-- Read of a JS array at a (possibly negative) integer index; an
out-of-range read yields `none`, modelling JS `undefined`. -/
def zget {α : Type} (l : List α) (i : ℤ) : Option α :=
  if h : 0 ≤ i ∧ i.toNat < l.length then some (l.get ⟨i.toNat, h.2⟩) else none

/-- Read of a JS array whose entries may themselves be undefined
(`none`); an out-of-range read is also `none`. -/
def jread (l : List (Option ℚ)) (i : ℤ) : Option ℚ := (zget l i).join

/-- A JS number: `some q` is a finite double of exact value `q`;
`none` stands for a non-finite result (NaN or ±Infinity). -/
abbrev JsNum := Option ℚ

/-- Addition on JS numbers; non-finite operands propagate. -/
def oadd : JsNum → JsNum → JsNum
  | some a, some b => some (a + b)
  | _, _ => none

/-- Subtraction on JS numbers; non-finite operands propagate. -/
def osub : JsNum → JsNum → JsNum
  | some a, some b => some (a - b)
  | _, _ => none

/-- Multiplication on JS numbers; non-finite operands propagate.  (All
multiplications in the modelled code have magnitudes far below overflow.) -/
def omul : JsNum → JsNum → JsNum
  | some a, some b => some (a * b)
  | _, _ => none

/-- Division on JS numbers: division by zero produces a non-finite value
(±Infinity or NaN in JS), and non-finite operands propagate. -/
def odiv : JsNum → JsNum → JsNum
  | some a, some b => if b = 0 then none else some (a / b)
  | _, _ => none

/-- Sum of a list of JS numbers, starting from 0 (models `+=` accumulation). -/
def osum (l : List JsNum) : JsNum := l.foldl oadd (some 0)

/-- Application of a real-valued unary math function (interpretation `f`)
to a JS number.  Used for `Math.sqrt` on arguments that are provably
nonnegative, where the JS result of a finite argument is finite. -/
def olift (f : ℚ → ℚ) : JsNum → JsNum
  | some a => some (f a)
  | none => none

end PixelSpace

namespace PixelSpace.Palette

/-- src/lib/palette.ts: `GRID_SIZE`. -/
def GRID_SIZE : ℕ := 16

/-- src/lib/palette.ts: `NUM_COLORS` (length of `PALETTE`). -/
def NUM_COLORS : ℕ := 8

/-- src/lib/palette.ts: `COLOR_WHITE` (background sentinel index). -/
def COLOR_WHITE : ℤ := 1

/-- src/lib/palette.ts: `COLOR_BLACK`. -/
def COLOR_BLACK : ℤ := 0

/-- src/lib/palette.ts: `COLOR_ENCODING`, the single-value perceptual
encoding of each palette colour. -/
def COLOR_ENCODING : List ℚ := [0, 255, 29, 145, 76, 178, 150, 200]

/-- src/lib/palette.ts: `getColorEncoding`; an out-of-range colour index
falls back to White's encoding via `?? COLOR_ENCODING[COLOR_WHITE]`. -/
def getColorEncoding (idx : ℤ) : ℚ := (zget COLOR_ENCODING idx).getD 255

/-- src/lib/palette.ts: `isLegacyBWFormat` — `pixels.some(v => v > 7)`. -/
def isLegacyBWFormat (pixels : List ℤ) : Bool := pixels.any (fun v => decide (7 < v))

/-- src/lib/palette.ts: `legacyGrayscaleToColorIndex`. -/
def legacyGrayscaleToColorIndex (v : ℤ) : ℤ := if v ≤ 127 then COLOR_BLACK else COLOR_WHITE

/-- src/lib/palette.ts: `convertLegacyPixels`. -/
def convertLegacyPixels (pixels : List ℤ) : List ℤ :=
  if isLegacyBWFormat pixels then pixels.map legacyGrayscaleToColorIndex else pixels

/-- src/lib/palette.ts: `pixelsToEncodedValues`. -/
def pixelsToEncodedValues (pixels : List ℤ) : List ℚ :=
  (if isLegacyBWFormat pixels then convertLegacyPixels pixels else pixels).map getColorEncoding

end PixelSpace.Palette

namespace PixelSpace.Invariant

open PixelSpace.Palette

/-- Invariant-extractor component (src/unnamed/part_001): `downsample`,
16×16 → 8×8 by averaging each 2×2 block.  An averaged block containing an
undefined read is NaN in JS, hence `none` here. -/
def downsample (pixels : List (Option ℚ)) : List (Option ℚ) :=
  (List.range 64).map fun k =>
    let blockY : ℕ := k / 8
    let blockX : ℕ := k % 8
    let i : ℤ := (blockY : ℤ) * 2 * 16 + (blockX : ℤ) * 2
    odiv (oadd (oadd (oadd (jread pixels i) (jread pixels (i+1)))
      (jread pixels (i+16))) (jread pixels (i+17))) (some 4)

/-- Weight of a cell for the centre-of-mass computation in `centerDrawing`:
1 when the encoded value differs from White's encoding 255 (an undefined
read also differs from 255, as in JS). -/
def cellWeight (enc : List ℚ) (y x : ℕ) : ℕ :=
  if zget enc ((y : ℤ) * 16 + x) ≠ some 255 then 1 else 0

/-- Total centre-of-mass weight accumulated by the scan loop of
`centerDrawing` (its `totalWeight`), the flat cell index `k` standing for
row `k / 16`, column `k % 16`. -/
def totalWeight (enc : List ℚ) : ℕ :=
  ((List.range 256).map fun k => cellWeight enc (k / 16) (k % 16)).sum

/-- The `sumX` accumulator of `centerDrawing`. -/
def sumX (enc : List ℚ) : ℕ :=
  ((List.range 256).map fun k => (k % 16) * cellWeight enc (k / 16) (k % 16)).sum

/-- The `sumY` accumulator of `centerDrawing`. -/
def sumY (enc : List ℚ) : ℕ :=
  ((List.range 256).map fun k => (k / 16) * cellWeight enc (k / 16) (k % 16)).sum

/-- Translation of an encoded grid by the integer vector `(sx, sy)` with
White fill, reading the source cell when it lies in the 16×16 grid (the
read itself can still be undefined when `enc` is short): this is the body
of the shift loop of `centerDrawing`. -/
def shiftGrid (sx sy : ℤ) (enc : List ℚ) : List (Option ℚ) :=
  (List.range 256).map fun k =>
    let y : ℤ := ((k / 16 : ℕ) : ℤ)
    let x : ℤ := ((k % 16 : ℕ) : ℤ)
    let srcX := x - sx
    let srcY := y - sy
    if 0 ≤ srcX ∧ srcX < 16 ∧ 0 ≤ srcY ∧ srcY < 16 then
      zget enc (srcY * 16 + srcX)
    else some 255

/-- Invariant-extractor component (src/unnamed/part_001): `centerDrawing`.
Moves the centre of mass of the non-white cells to the grid centre;
an empty drawing is returned unchanged. -/
def centerDrawing (enc : List ℚ) : List (Option ℚ) :=
  if totalWeight enc = 0 then enc.map some
  else
    let comX : ℚ := (sumX enc : ℚ) / (totalWeight enc : ℚ)
    let comY : ℚ := (sumY enc : ℚ) / (totalWeight enc : ℚ)
    let shiftX : ℤ := jsRound (16 / 2 - comX)
    let shiftY : ℤ := jsRound (16 / 2 - comY)
    shiftGrid shiftX shiftY enc

/-- Invariant-extractor component (src/unnamed/part_001): `rotate90`
(clockwise): the cell at row `y`, column `x` moves to row `x`,
column `size-1-y`; equivalently the output cell `(r, c)` reads the input
cell `(size-1-c, r)`. -/
def rotate90 (pixels : List (Option ℚ)) (size : ℕ) : List (Option ℚ) :=
  (List.range (size * size)).map fun k =>
    let r : ℕ := k / size
    let c : ℕ := k % size
    zget pixels (((size : ℤ) - 1 - (c : ℤ)) * (size : ℤ) + (r : ℤ)) |>.join

/-- Invariant-extractor component (src/unnamed/part_001): `flipH`
(horizontal mirror): the output cell `(r, c)` reads the input cell
`(r, size-1-c)`. -/
def flipH (pixels : List (Option ℚ)) (size : ℕ) : List (Option ℚ) :=
  (List.range (size * size)).map fun k =>
    let r : ℕ := k / size
    let c : ℕ := k % size
    zget pixels ((r : ℤ) * (size : ℤ) + ((size : ℤ) - 1 - (c : ℤ))) |>.join

/-- Invariant-extractor component (src/unnamed/part_001): `getAllVariants`,
the 8 orientation variants produced by the source's 4-iteration loop
(push current, push flipped, rotate). -/
def getAllVariants (pixels : List (Option ℚ)) (size : ℕ) : List (List (Option ℚ)) :=
  let r1 := rotate90 pixels size
  let r2 := rotate90 r1 size
  let r3 := rotate90 r2 size
  [pixels, flipH pixels size, r1, flipH r1 size, r2, flipH r2 size, r3, flipH r3 size]

/-- Steps 2–4 of `extractInvariantFeatures`: generate the 8 orientation
variants of an (already centred) grid, downsample each to 8×8, and average
elementwise (`avgFeature[i] += variant[i] / 8`). -/
def avgOfVariants (centered : List (Option ℚ)) : List (Option ℚ) :=
  let variants := getAllVariants centered GRID_SIZE
  let downsampledVariants := variants.map downsample
  (List.range 64).map fun (i : ℕ) =>
    osum (downsampledVariants.map fun v => odiv (jread v ((i : ℕ) : ℤ)) (some 8))

/-- src/unnamed/part_001: `extractInvariantFeatures` — encode the pixels,
centre the drawing, and average the downsampled orientation variants,
yielding the 64-dimensional invariant feature vector. -/
def extractInvariantFeatures (pixels : List ℤ) : List (Option ℚ) :=
  let encodedValues := pixelsToEncodedValues pixels
  let centered := centerDrawing encodedValues
  avgOfVariants centered

/-- Rotation by 90° clockwise of a 16×16 colour-index grid — the transform
`t` of the invariance claim, acting on raw pixel arrays. -/
def pixRotate90 (pixels : List ℤ) : List ℤ :=
  (List.range 256).map fun k =>
    let r : ℕ := k / 16
    let c : ℕ := k % 16
    (zget pixels ((15 - (c : ℤ)) * 16 + (r : ℤ))).getD COLOR_WHITE

/-- Horizontal reflection of a 16×16 colour-index grid — the transform `t`
of the invariance claim, acting on raw pixel arrays. -/
def pixFlipH (pixels : List ℤ) : List ℤ :=
  (List.range 256).map fun k =>
    let r : ℕ := k / 16
    let c : ℕ := k % 16
    (zget pixels ((r : ℤ) * 16 + (15 - (c : ℤ)))).getD COLOR_WHITE

/-- Translation of the non-background content of a 16×16 colour-index grid
by `(dx, dy)`, filling exposed cells with the background colour — the
transform `t` of the invariance claim, acting on raw pixel arrays. -/
def pixTranslate (dx dy : ℤ) (pixels : List ℤ) : List ℤ :=
  (List.range 256).map fun k =>
    let y : ℤ := ((k / 16 : ℕ) : ℤ)
    let x : ℤ := ((k % 16 : ℕ) : ℤ)
    let srcX := x - dx
    let srcY := y - dy
    if 0 ≤ srcX ∧ srcX < 16 ∧ 0 ≤ srcY ∧ srcY < 16 then
      (zget pixels (srcY * 16 + srcX)).getD COLOR_WHITE
    else COLOR_WHITE

/-- The two-black-pixel grid (black at flat indices 0 and 51, all other
cells white) used to test the invariance claim. -/
def twoPixelGrid : List ℤ :=
  (List.range 256).map fun (k : ℕ) => if k = 0 ∨ k = 51 then 0 else 1

/-- A 16×16 grid rearranged through an index map: output cell `k` reads
input cell `σ k` (the common shape of `rotate90` and `flipH`). -/
def applyIdx (σ : ℕ → ℕ) (pixels : List (Option ℚ)) : List (Option ℚ) :=
  (List.range 256).map fun (k : ℕ) => (zget pixels ((σ k : ℕ) : ℤ)).join

/-- The index map of `rotate90` on a 16×16 grid: output cell `k` reads
input cell `(15 − k%16)·16 + k/16`. -/
def rIdx (k : ℕ) : ℕ := (15 - k % 16) * 16 + k / 16

/-- The index map of `flipH` on a 16×16 grid: output cell `k` reads input
cell `(k/16)·16 + (15 − k%16)`. -/
def fIdx (k : ℕ) : ℕ := (k / 16) * 16 + (15 - k % 16)

/-- The encoded-level form of `pixTranslate`: translate an encoded 16×16
grid by `(dx, dy)`, filling exposed cells with White's encoding 255. -/
def encShift (dx dy : ℤ) (enc : List ℚ) : List ℚ :=
  (List.range 256).map fun (k : ℕ) =>
    let y : ℤ := ((k / 16 : ℕ) : ℤ)
    let x : ℤ := ((k % 16 : ℕ) : ℤ)
    let srcX := x - dx
    let srcY := y - dy
    if 0 ≤ srcX ∧ srcX < 16 ∧ 0 ≤ srcY ∧ srcY < 16 then
      (zget enc (srcY * 16 + srcX)).getD 255
    else 255

end PixelSpace.Invariant

namespace PixelSpace.Gallery

open PixelSpace.Palette

/-- GalleryCanvas component: `normalizePixels` — legacy conversion, length
clamping to 256 (pad with White / truncate), and replacement of invalid
colour indices by White.  Inputs are modelled as integer arrays, so the
source's `undefined`/`null` checks (which concern sparse arrays) have no
counterpart; the range checks are modelled exactly. -/
def normalizePixels (pixels : List ℤ) : List ℤ :=
  let normalized := if isLegacyBWFormat pixels then convertLegacyPixels pixels else pixels
  let clamped :=
    if normalized.length < 256 then
      normalized ++ List.replicate (256 - normalized.length) COLOR_WHITE
    else if 256 < normalized.length then normalized.take 256
    else normalized
  clamped.map fun v => if v < 0 ∨ (NUM_COLORS : ℤ) ≤ v then COLOR_WHITE else v

/-- GalleryCanvas component: `colorHistogram` — per-colour counts divided
by the input length.  The bin increments `hist[p]++` are modelled as
counting, which coincides with the source for the in-range inputs
produced by `normalizePixels` (its only call site passes normalized
pixels).  Dividing by the length of an empty input is NaN in JS, hence
`odiv`. -/
def colorHistogram (pixels : List ℤ) : List JsNum :=
  (List.range NUM_COLORS).map fun (c : ℕ) =>
    odiv (some (pixels.count ((c : ℕ) : ℤ) : ℚ)) (some (pixels.length : ℚ))

/-- Ordered colour pairs contributed by the neighbour scan of
`colorAdjacencyMatrix`: for every cell, its right neighbour (when `x < 15`)
and bottom neighbour (when `y < 15`), with the source's `?? COLOR_WHITE`
fallback, keeping only events whose two colours are in range (the source
`continue`s/skips otherwise). -/
def adjacencyEvents (pixels : List ℤ) : List (ℤ × ℤ) :=
  let get := fun (i : ℕ) => (zget pixels (i : ℤ)).getD COLOR_WHITE
  let valid := fun (c : ℤ) => 0 ≤ c ∧ c < (NUM_COLORS : ℤ)
  let horiz := ((List.range 16).map fun y => (List.range 15).map fun x =>
    (get (y * 16 + x), get (y * 16 + x + 1))).flatten
  let vert := ((List.range 15).map fun y => (List.range 16).map fun x =>
    (get (y * 16 + x), get ((y + 1) * 16 + x))).flatten
  (horiz ++ vert).filter fun p => decide (valid p.1 ∧ valid p.2)

/-- GalleryCanvas component: `colorAdjacencyMatrix` — each neighbour event
`(c1, c2)` increments both `adj[c1][c2]` and `adj[c2][c1]`; the flattened
8×8 matrix is normalized by its total (or by 1 when the total is 0,
the source's `|| 1` guard). -/
def colorAdjacencyMatrix (pixels : List ℤ) : List JsNum :=
  let events := adjacencyEvents pixels
  let flat : List ℕ := (List.range 64).map fun k =>
    let a : ℤ := (k / 8 : ℕ)
    let b : ℤ := (k % 8 : ℕ)
    events.count (a, b) + events.count (b, a)
  let total : ℚ := (flat.sum : ℚ)
  let denom : ℚ := if total = 0 then 1 else total
  flat.map fun (v : ℕ) => odiv (some ((v : ℕ) : ℚ)) (some denom)

/-- GalleryCanvas component: `symmetryFeatures` — the four symmetry scores
count cells whose value equals the value at the mirrored position
(horizontal, vertical, transpose, 180° rotation), each divided by 256.
Two out-of-range reads compare equal, as `undefined === undefined` does
in JS. -/
def symmetryFeatures (pixels : List ℤ) : List JsNum :=
  let total : ℚ := 256
  let countSym := fun (mirror : ℕ → ℕ) =>
    (((List.range 256).filter fun (k : ℕ) =>
      decide (zget pixels (k : ℤ) = zget pixels ((mirror k : ℕ) : ℤ))).length : ℚ)
  let hSym := countSym fun k => k / 16 * 16 + (15 - k % 16)
  let vSym := countSym fun k => (15 - k / 16) * 16 + k % 16
  let dSym := countSym fun k => k % 16 * 16 + k / 16
  let rotSym := countSym fun k => (15 - k / 16) * 16 + (15 - k % 16)
  [odiv (some hSym) (some total), odiv (some vSym) (some total),
   odiv (some dSym) (some total), odiv (some rotSym) (some total)]

/-- A cell read that does not compare equal to White counts as content in
the structural scan (`p !== COLOR_WHITE`; an undefined read also differs
from White in JS). -/
def isContent (pixels : List ℤ) (k : ℕ) : Bool :=
  decide (zget pixels (k : ℤ) ≠ some COLOR_WHITE)

/-- The list of flat indices of content (non-White) cells, in scan order. -/
def contentCells (pixels : List ℤ) : List ℕ :=
  (List.range 256).filter (isContent pixels)

/-- GalleryCanvas component: `structuralFeatures` — fill ratio, edge
density, half the bounding-box aspect ratio, bounding-box coverage,
centroid dispersion and non-background ratio.  `sqrtF` interprets
`Math.sqrt` (its argument, a sum of two squares, is nonnegative, so the
JS value is finite). -/
def structuralFeatures (sqrtF : ℚ → ℚ) (pixels : List ℤ) : List JsNum :=
  let cells := contentCells pixels
  let nonWhiteCount := cells.length
  let sX : ℕ := (cells.map fun k => k % 16).sum
  let sY : ℕ := (cells.map fun k => k / 16).sum
  let minX : ℕ := (cells.map fun k => k % 16).foldl min 16
  let maxX : ℕ := (cells.map fun k => k % 16).foldl max 0
  let minY : ℕ := (cells.map fun k => k / 16).foldl min 16
  let maxY : ℕ := (cells.map fun k => k / 16).foldl max 0
  let edgeCount : ℕ := (cells.map fun (k : ℕ) =>
    (if k % 16 < 15 ∧ zget pixels (((k : ℕ) : ℤ) + 1) ≠ zget pixels ((k : ℕ) : ℤ) then 1 else 0) +
    (if k / 16 < 15 ∧ zget pixels (((k : ℕ) : ℤ) + 16) ≠ zget pixels ((k : ℕ) : ℤ) then 1
      else 0)).sum
  let fillRatio := odiv (some (nonWhiteCount : ℚ)) (some 256)
  let edgeDensity := odiv (some (edgeCount : ℚ)) (some (2 * 15 * 16 : ℚ))
  let bbWidth : ℕ := if minX ≤ maxX then maxX - minX + 1 else 0
  let bbHeight : ℕ := if minY ≤ maxY then maxY - minY + 1 else 0
  let bbAspect : JsNum :=
    if 0 < bbHeight then odiv (some (bbWidth : ℚ)) (some (bbHeight : ℚ)) else some 1
  let bbCoverage := odiv (some ((bbWidth * bbHeight : ℕ) : ℚ)) (some 256)
  let dispersion : ℚ :=
    if nonWhiteCount = 0 then 0
    else
      let centX : ℚ := (sX : ℚ) / (nonWhiteCount : ℚ)
      let centY : ℚ := (sY : ℚ) / (nonWhiteCount : ℚ)
      ((cells.map fun k =>
        sqrtF (((k % 16 : ℕ) - centX) ^ 2 + ((k / 16 : ℕ) - centY) ^ 2)).sum) /
        ((nonWhiteCount : ℚ) * 16)
  [fillRatio, edgeDensity, odiv bbAspect (some 2), bbCoverage, some dispersion,
   odiv (some (nonWhiteCount : ℚ)) (some 256)]

end PixelSpace.Gallery

namespace PixelSpace.Gallery

open PixelSpace.Palette

/-- GalleryCanvas component: `floodFill` — the iterative stack-based flood
fill, modelled with the stack head as the array top (JS `push`/`pop` act
on the array end; the four neighbour pushes appear in reverse push order).
Returns the number of visited cells and the updated visited set. -/
def floodFill (pixels : List ℤ) (color : ℤ) (stack : List ℕ) (visited : Finset ℕ) :
    ℕ × Finset ℕ :=
  match stack with
  | [] => (0, visited)
  | idx :: rest =>
    if h : idx ∈ visited ∨ ¬ zget pixels (idx : ℤ) = some color then
      floodFill pixels color rest visited
    else
      let x := idx % 16
      let y := idx / 16
      let pushes : List ℕ :=
        (if y < 15 then [idx + 16] else []) ++ (if 0 < y then [idx - 16] else []) ++
        (if x < 15 then [idx + 1] else []) ++ (if 0 < x then [idx - 1] else [])
      let r := floodFill pixels color (pushes ++ rest) (insert idx visited)
      (r.1 + 1, r.2)
termination_by ((Finset.range pixels.length \ visited).card, stack.length)
decreasing_by
  · apply Prod.Lex.right
    simp
  · apply Prod.Lex.left
    push_neg at h
    obtain ⟨hni, hcol⟩ := h
    have hlt : idx < pixels.length := by
      by_cases hc : idx < pixels.length
      · exact hc
      · simp [PixelSpace.zget, hc] at hcol
    rw [Finset.sdiff_insert]
    exact Finset.card_erase_lt_of_mem
      (Finset.mem_sdiff.mpr ⟨Finset.mem_range.mpr hlt, hni⟩)

/-- The body of the scan loop of `connectedComponentFeatures`: flood-fill
from the cell when it is unvisited and non-White, recording the component
size. -/
def componentStep (pixels : List ℤ) (acc : Finset ℕ × List ℕ) (i : ℕ) :
    Finset ℕ × List ℕ :=
  if i ∉ acc.1 ∧ zget pixels (i : ℤ) ≠ some COLOR_WHITE then
    let r := floodFill pixels ((zget pixels (i : ℤ)).getD COLOR_WHITE) [i] acc.1
    (r.2, acc.2 ++ [r.1])
  else acc

/-- The scan loop of `connectedComponentFeatures`: visit every flat index
in order, flood-filling from each unvisited non-White cell and recording
the component size. -/
def componentSizes (pixels : List ℤ) : List ℕ :=
  ((List.range pixels.length).foldl (componentStep pixels) (∅, [])).2

/-- GalleryCanvas component: `connectedComponentFeatures` — normalized
component count (capped at 10) and largest/smallest/mean component size
ratios; an input with no components yields `[0, 0, 0, 0]`. -/
def connectedComponentFeatures (pixels : List ℤ) : List JsNum :=
  let sizes := componentSizes pixels
  let total : ℚ := (pixels.length : ℚ)
  match sizes with
  | [] => [some 0, some 0, some 0, some 0]
  | s :: rest =>
    let numComponents : ℕ := (s :: rest).length
    let largest := odiv (some (((s :: rest).foldl max 0 : ℕ) : ℚ)) (some total)
    let smallest := odiv (some ((rest.foldl min s : ℕ) : ℚ)) (some total)
    let mean := odiv (odiv (some (((s :: rest).sum : ℕ) : ℚ)) (some (numComponents : ℚ)))
      (some total)
    [some (min ((numComponents : ℚ) / 10) 1), largest, smallest, mean]

/-- GalleryCanvas component: `downsampledSpatial` — non-White density of
each of the 16 blocks of the 4×4 downsampling, in row-major block order. -/
def downsampledSpatial (pixels : List ℤ) : List JsNum :=
  (List.range 16).map fun b =>
    let blockY := b / 4
    let blockX := b % 4
    let cnt := ((List.range 16).filter fun d =>
      isContent pixels ((blockY * 4 + d / 4) * 16 + (blockX * 4 + d % 4))).length
    odiv (some (cnt : ℚ)) (some 16)

/-- The six feature-group weights of the enhanced extractor. -/
structure Weights where
  colorHist : ℚ
  adjacency : ℚ
  symmetry : ℚ
  structure_ : ℚ
  components : ℚ
  spatial : ℚ

/-- The `applyWeight` helper of `extractEnhancedFeatures`: scale a feature
group by its weight. -/
def applyWeight (features : List JsNum) (weight : ℚ) : List JsNum :=
  features.map fun f => omul f (some weight)

/-- GalleryCanvas component: `extractEnhancedFeatures` — normalize the
pixels, then concatenate the six weighted feature groups
(8 + 64 + 4 + 6 + 4 + 16 = 102 features). -/
def extractEnhancedFeatures (sqrtF : ℚ → ℚ) (pixels : List ℤ) (w : Weights) : List JsNum :=
  let normalized := normalizePixels pixels
  applyWeight (colorHistogram normalized) w.colorHist ++
  applyWeight (colorAdjacencyMatrix normalized) w.adjacency ++
  applyWeight (symmetryFeatures normalized) w.symmetry ++
  applyWeight (structuralFeatures sqrtF normalized) w.structure_ ++
  applyWeight (connectedComponentFeatures normalized) w.components ++
  applyWeight (downsampledSpatial normalized) w.spatial

end PixelSpace.Gallery

namespace PixelSpace

/-- Interpretations of the ambient irrational math functions: `Math.sqrt`,
`Math.exp`, `Math.log`, `Math.pow` (curried), and `Math.cos`/`Math.sin`
composed with the `2π·` scaling applied to their random arguments. -/
structure JsFuns where
  sqrt : ℚ → ℚ
  exp : ℚ → ℚ
  log : ℚ → ℚ
  pow : ℚ → ℚ → ℚ
  cos2pi : ℚ → ℚ
  sin2pi : ℚ → ℚ

/-- An interpretation instantiating every math function by the identity
(in `pow`'s case by the first argument); used only to pick concrete
instances of theorems that hold for all interpretations. -/
def idFuns : JsFuns := ⟨id, id, id, fun a _ => a, id, id⟩

end PixelSpace

namespace PixelSpace.Gallery

open PixelSpace.Palette

/-- GalleryCanvas component: `cosineSimilarity` over feature vectors whose
entries may be non-finite; a zero magnitude yields 0 (the source's guard),
otherwise the dot product is divided by the product of the root
magnitudes. -/
def cosineSimilarity (sqrtF : ℚ → ℚ) (a b : List JsNum) : JsNum :=
  let dot := osum ((List.range a.length).map fun (i : ℕ) =>
    omul (jread a ((i : ℕ) : ℤ)) (jread b ((i : ℕ) : ℤ)))
  let magA := osum ((List.range a.length).map fun (i : ℕ) =>
    omul (jread a ((i : ℕ) : ℤ)) (jread a ((i : ℕ) : ℤ)))
  let magB := osum ((List.range a.length).map fun (i : ℕ) =>
    omul (jread b ((i : ℕ) : ℤ)) (jread b ((i : ℕ) : ℤ)))
  if magA = some 0 ∨ magB = some 0 then some 0
  else odiv dot (omul (olift sqrtF magA) (olift sqrtF magB))

/-- JS `ToInt32`: wrap an integer into `[-2^31, 2^31)`. -/
def toInt32 (n : ℤ) : ℤ :=
  let m := n % 4294967296
  if 2147483648 ≤ m then m - 4294967296 else m

/-- GalleryCanvas component: the pixel hash of `computePreviewPosition` —
`hash = ((hash << 5) - hash + (pixels[i] ?? 0)) | 0` over every 7th entry.
The in-range reads are defined, so `?? 0` is modelled by a default. -/
def hashPixels (pixels : List ℤ) : ℤ :=
  ((List.range ((pixels.length + 6) / 7)).map fun j => j * 7).foldl
    (fun h i => toInt32 (toInt32 (h * 32) - h + pixels.getD i 0)) 0

/-- GalleryCanvas component: `DRAWING_SIZE`. -/
def DRAWING_SIZE : ℚ := 56

/-- The deterministic anti-overlap offset of `computePreviewPosition`:
both components are carved out of the 32-bit pixel hash and scaled by
`DRAWING_SIZE * 0.8`. -/
def hashOffset (pixels : List ℤ) : ℚ × ℚ :=
  let hash := hashPixels pixels
  let offset := DRAWING_SIZE * (8 / 10)
  let hashNormX : ℚ := ((hash % 65536 : ℤ) : ℚ) / 65535 - 1 / 2
  let hashNormY : ℚ := (((hash / 65536 % 65536 : ℤ)) : ℚ) / 65535 - 1 / 2
  (hashNormX * offset, hashNormY * offset)

/-- Stable insertion used to model the stable JS `Array.prototype.sort`:
`x` is placed before the first element not strictly ordered before it, so
elements comparing equal keep their original relative order. -/
def sinsert {α : Type} (lt : α → α → Bool) (x : α) : List α → List α
  | [] => [x]
  | y :: ys => if lt y x then y :: sinsert lt x ys else x :: y :: ys

/-- Stable sort by the strict order `lt` (model of JS stable sort). -/
def stableSort {α : Type} (lt : α → α → Bool) (l : List α) : List α :=
  l.foldr (sinsert lt) []

/-- Strictly-greater similarity, the descending order of the comparator
`(a, b) => b.similarity - a.similarity`; non-finite keys do not order. -/
def simGT : JsNum → JsNum → Bool
  | some a, some b => decide (b < a)
  | _, _ => false

/-- The similarity-weighted average accumulated by `computePreviewPosition`
over the top-`k` neighbours: for each neighbour with a known position its
squared similarity weights the position sum. -/
def previewAccum (positions : List (ℕ × (ℚ × ℚ))) (topK : List (ℕ × JsNum)) :
    JsNum × JsNum × JsNum :=
  topK.foldl
    (fun acc e =>
      match positions.lookup e.1 with
      | some pos =>
        let weight := omul e.2 e.2
        (oadd acc.1 (omul (some pos.1) weight), oadd acc.2.1 (omul (some pos.2) weight),
         oadd acc.2.2 weight)
      | none => acc)
    (some 0, some 0, some 0)

/-- The neighbour-similarity pipeline shared by `computePreviewPosition`
and its offset-free base: features of the preview pixels and of every
existing drawing (served from the cache when present, as the source's
cache-fill loop guarantees), similarities, stable descending sort, and the
top `min(5, n)` entries. -/
def previewTopK (sqrtF : ℚ → ℚ) (drawings : List (ℕ × List ℤ))
    (cached : List (ℕ × List JsNum)) (wc ws wsh : ℚ) (pixels : List ℤ) :
    List (ℕ × JsNum) :=
  let w : Weights := ⟨wc, ws, ws, wsh, wsh, wsh⟩
  let previewFeatures := extractEnhancedFeatures sqrtF pixels w
  let similarities := drawings.map fun d =>
    (d.1, cosineSimilarity sqrtF previewFeatures
      ((cached.lookup d.1).getD (extractEnhancedFeatures sqrtF d.2 w)))
  let sorted := stableSort (fun a b => simGT a.2 b.2) similarities
  sorted.take (min 5 drawings.length)

/-- GalleryCanvas component: `computePreviewPosition` — `none` models the
source's `null` returns (no positions, empty or all-background pixels, no
neighbours, zero total weight); otherwise the similarity²-weighted average
neighbour position plus the deterministic hash offset. -/
def computePreviewPosition (sqrtF : ℚ → ℚ) (positions : List (ℕ × (ℚ × ℚ)))
    (drawings : List (ℕ × List ℤ)) (cached : List (ℕ × List JsNum))
    (wc ws wsh : ℚ) (pixels : List ℤ) : Option (JsNum × JsNum) :=
  if positions = [] ∨ pixels = [] then none
  else if ¬ pixels.any (fun p => decide (p ≠ COLOR_WHITE)) then none
  else
    let topK := previewTopK sqrtF drawings cached wc ws wsh pixels
    if topK = [] then none
    else
      let acc := previewAccum positions topK
      if acc.2.2 = some 0 then none
      else
        let avgX := odiv acc.1 acc.2.2
        let avgY := odiv acc.2.1 acc.2.2
        let off := hashOffset pixels
        some (oadd avgX (some off.1), oadd avgY (some off.2))

/-- The hash-offset-free part of `computePreviewPosition`: identical
pipeline, stopping at the weighted average neighbour position. -/
def previewBasePosition (sqrtF : ℚ → ℚ) (positions : List (ℕ × (ℚ × ℚ)))
    (drawings : List (ℕ × List ℤ)) (cached : List (ℕ × List JsNum))
    (wc ws wsh : ℚ) (pixels : List ℤ) : Option (JsNum × JsNum) :=
  if positions = [] ∨ pixels = [] then none
  else if ¬ pixels.any (fun p => decide (p ≠ COLOR_WHITE)) then none
  else
    let topK := previewTopK sqrtF drawings cached wc ws wsh pixels
    if topK = [] then none
    else
      let acc := previewAccum positions topK
      if acc.2.2 = some 0 then none
      else some (odiv acc.1 acc.2.2, odiv acc.2.1 acc.2.2)

end PixelSpace.Gallery

namespace PixelSpace.Gallery

/-- The spatial-grid cell of a position: `Math.floor` of each coordinate
divided by the cell size. -/
def cellOf (cellSize : ℚ) (p : ℚ × ℚ) : ℤ × ℤ :=
  (Rat.floor (p.1 / cellSize), Rat.floor (p.2 / cellSize))

/-- The spatial grid built at the start of each relaxation pass: the
indices (in entry order) whose position at pass start falls in the given
cell.  The source keys its `Map` by the string `cellX + "," + cellY`,
which is injective in the pair, and pushes indices in ascending order. -/
def gridBucket (cellSize : ℚ) (positions : List (ℚ × ℚ)) (key : ℤ × ℤ) : List ℕ :=
  (List.range positions.length).filter fun i => cellOf cellSize (positions.getD i (0, 0)) = key

/-- One pairwise interaction of `resolveCollisions` between entry `i` and a
neighbour `j` (skipped when `j ≤ i`): overlapping pairs are pushed apart
symmetrically along their connecting vector, exactly coincident pairs along
a random direction; both displacements are equal and opposite. -/
def collidePair (fs : JsFuns) (rng : ℕ → ℚ) (minDistance : ℚ)
    (st : List (ℚ × ℚ) × ℕ) (i j : ℕ) : List (ℚ × ℚ) × ℕ :=
  if j ≤ i then st
  else
    let pos := st.1
    let p1 := pos.getD i (0, 0)
    let p2 := pos.getD j (0, 0)
    let distX := p2.1 - p1.1
    let distY := p2.2 - p1.2
    let distSq := distX * distX + distY * distY
    if distSq < minDistance * minDistance ∧ 0 < distSq then
      let dist := fs.sqrt distSq
      let overlap := (minDistance - dist) / 2
      let nx := distX / dist
      let ny := distY / dist
      ((pos.set i (p1.1 - nx * overlap, p1.2 - ny * overlap)).set j
        (p2.1 + nx * overlap, p2.2 + ny * overlap), st.2)
    else if distSq = 0 then
      let r := rng st.2
      let vx := fs.cos2pi r * minDistance / 2
      let vy := fs.sin2pi r * minDistance / 2
      ((pos.set i (p1.1 - vx, p1.2 - vy)).set j (p2.1 + vx, p2.2 + vy), st.2 + 1)
    else st

/-- One relaxation pass of `resolveCollisions`: the grid is built once from
the positions at pass start; each entry then scans the 3×3 neighbouring
cells of its current cell and interacts with every strictly later entry
found there. -/
def collisionPass (fs : JsFuns) (rng : ℕ → ℚ) (minDistance : ℚ)
    (st : List (ℚ × ℚ) × ℕ) : List (ℚ × ℚ) × ℕ :=
  let passStart := st.1
  (List.range passStart.length).foldl
    (fun st1 i =>
      let cell := cellOf minDistance (st1.1.getD i (0, 0))
      ([-1, 0, 1] : List ℤ).foldl
        (fun st2 dx =>
          ([-1, 0, 1] : List ℤ).foldl
            (fun st3 dy =>
              (gridBucket minDistance passStart (cell.1 + dx, cell.2 + dy)).foldl
                (fun st4 j => collidePair fs rng minDistance st4 i j) st3)
            st2)
        st1)
    st

/-- GalleryCanvas component: `resolveCollisions` — up to `iterations`
spatial-grid relaxation passes (the source default is 8) with cell size
equal to the minimum spacing.  The random-number counter is threaded for
the coincident-pair direction draws. -/
def resolveCollisions (fs : JsFuns) (rng : ℕ → ℚ) (positions : List (ℚ × ℚ))
    (minDistance : ℚ) (iterations : ℕ) (c0 : ℕ) : List (ℚ × ℚ) × ℕ :=
  (List.range iterations).foldl (fun st _ => collisionPass fs rng minDistance st)
    (positions, c0)

end PixelSpace.Gallery

namespace PixelSpace.Worker

/-- A message posted by a worker (`self.postMessage`): progress
notifications, the final embeddings, or a log line (whose text content is
not modelled). -/
inductive Msg where
  | progress (iteration totalIterations : ℕ)
  | done (embeddings : List (ℚ × ℚ))
  | log
deriving DecidableEq

/-- A 2D embedding point (the source uses length-2 number arrays
throughout). -/
abbrev Pt := ℚ × ℚ

/-- The worker's ambient state: the position in the `Math.random` stream
and the trace of posted messages. -/
abbrev World := ℕ × List Msg

/-- Draw the next `Math.random` value from the ambient stream. -/
def randomDraw (rng : ℕ → ℚ) (w : World) : ℚ × World := (rng w.1, (w.1 + 1, w.2))

/-- Post a message (`self.postMessage`). -/
def post (m : Msg) (w : World) : World := (w.1, w.2 ++ [m])

/-- Recognizer for `done` messages. -/
def isDone : Msg → Bool
  | .done _ => true
  | _ => false

/-- Matrix entry accessor `m[i][j]` with JS reads defaulting (all modelled
accesses are in range). -/
def mat (m : List (List ℚ)) (i j : ℕ) : ℚ := (m.getD i []).getD j 0

end PixelSpace.Worker

namespace PixelSpace.Worker.Tsne

open PixelSpace PixelSpace.Worker

/-- The t-SNE request configuration. -/
structure TsneConfig where
  perplexity : ℚ
  iterations : ℕ
  learningRate : ℚ

/-- t-SNE worker (src/unnamed/part_003): `squaredDistance`; both callers
pass equal-length vectors. -/
def squaredDistance (a b : List ℚ) : ℚ :=
  ((List.range a.length).map fun i =>
    let diff := a.getD i 0 - b.getD i 0
    diff * diff).sum

/-- Squared distance of two embedding points (the source applies
`squaredDistance` to length-2 arrays). -/
def sqDistPt (p q : Pt) : ℚ := (p.1 - q.1) * (p.1 - q.1) + (p.2 - q.2) * (p.2 - q.2)

/-- t-SNE worker: `computeDistances` — the symmetric matrix of pairwise
squared distances (the source fills both triangles from the `i < j`
computation). -/
def computeDistances (data : List (List ℚ)) : List (List ℚ) :=
  (List.range data.length).map fun i => (List.range data.length).map fun j =>
    if i = j then 0
    else if i < j then squaredDistance (data.getD i []) (data.getD j [])
    else squaredDistance (data.getD j []) (data.getD i [])

/-- One binary-search iteration of `computeProbabilities` for row `i`:
recompute the row with the current sigma, normalize when its sum is
positive, compare the entropy with the target and narrow the bracket;
the `break` is modelled by the `stop` flag. -/
def probSearchStep (fs : JsFuns) (distRow : List ℚ) (i n : ℕ) (targetEntropy : ℚ)
    (st : List ℚ × ℚ × ℚ × ℚ × Bool) : List ℚ × ℚ × ℚ × ℚ × Bool :=
  match st with
  | (row, sigmaMin, sigmaMax, sigma, stop) =>
    if stop then (row, sigmaMin, sigmaMax, sigma, stop)
    else
      let raw := (List.range n).map fun j =>
        if j = i then 0 else fs.exp (-(distRow.getD j 0) / (2 * sigma * sigma))
      let sumP := raw.sum
      let row1 := if 0 < sumP then raw.map (· / sumP) else raw
      let entropy := (row1.map fun p =>
        if 1 / 10000000000 < p then -(p * fs.log p) else 0).sum
      if |entropy - targetEntropy| < 1 / 100000 then (row1, sigmaMin, sigmaMax, sigma, true)
      else if targetEntropy < entropy then
        (row1, sigmaMin, sigma, (sigma + sigmaMin) / 2, false)
      else (row1, sigma, sigmaMax, (sigma + sigmaMax) / 2, false)

/-- t-SNE worker: `computeProbabilities` — for each row, 50 binary-search
iterations for the Gaussian bandwidth matching `log(perplexity)` entropy. -/
def computeProbabilities (fs : JsFuns) (distances : List (List ℚ)) (perplexity : ℚ) :
    List (List ℚ) :=
  let n := distances.length
  let targetEntropy := fs.log perplexity
  (List.range n).map fun i =>
    ((List.range 50).foldl
      (fun st _ => probSearchStep fs (distances.getD i []) i n targetEntropy st)
      (List.replicate n 0, 1 / 10000000000, 10000000000, 1, false)).1

/-- t-SNE worker: `symmetrize` — `(P[i][j] + P[j][i]) / (2N)` off the
diagonal, then global normalization when the total is positive. -/
def symmetrize (P : List (List ℚ)) : List (List ℚ) :=
  let n := P.length
  let Psym := (List.range n).map fun i => (List.range n).map fun j =>
    if i = j then 0 else (mat P i j + mat P j i) / (2 * n)
  let total := (Psym.map List.sum).sum
  if 0 < total then Psym.map fun row => row.map (· / total) else Psym

/-- t-SNE worker: `initializeEmbeddings` — `n` 2D points with coordinates
`(random − 0.5) · 0.01`, drawn x before y. -/
def initializeEmbeddings (rng : ℕ → ℚ) (n : ℕ) (w : World) : List Pt × World :=
  (List.range n).foldl
    (fun (acc : List Pt × World) _ =>
      let (rx, w1) := randomDraw rng acc.2
      let (ry, w2) := randomDraw rng w1
      (acc.1 ++ [((rx - 1/2) * (1/100), (ry - 1/2) * (1/100))], w2))
    ([], w)

/-- t-SNE worker: `computeQ` — Student-t affinities `1 / (1 + d²)` off the
diagonal, and their total (the source accumulates `2 · val` over `i < j`). -/
def computeQ (Y : List Pt) : List (List ℚ) × ℚ :=
  let n := Y.length
  let Q := (List.range n).map fun i => (List.range n).map fun j =>
    if i = j then 0 else 1 / (1 + sqDistPt (Y.getD i (0, 0)) (Y.getD j (0, 0)))
  (Q, (Q.map List.sum).sum)

/-- t-SNE worker: `computeGradients` —
`4 · (p·exaggeration − q) · Q[i][j] · (y_i − y_j)` summed over `j ≠ i`. -/
def computeGradients (P Q : List (List ℚ)) (sumQ : ℚ) (Y : List Pt)
    (exaggeration : ℚ) : List Pt :=
  let n := Y.length
  (List.range n).map fun i =>
    ((List.range n).map fun j =>
      if i = j then ((0 : ℚ), (0 : ℚ))
      else
        let qij := mat Q i j / sumQ
        let pij := mat P i j * exaggeration
        let mult := 4 * (pij - qij) * mat Q i j
        (mult * ((Y.getD i (0, 0)).1 - (Y.getD j (0, 0)).1),
         mult * ((Y.getD i (0, 0)).2 - (Y.getD j (0, 0)).2))).foldl
      (fun a b => (a.1 + b.1, a.2 + b.2)) (0, 0)

/-- One gradient-descent iteration of `runTSNE`: Q matrix, exaggeration
schedule (4 before iteration 100), gradients, momentum schedule (0.5
before iteration 250, then 0.8), velocity and position updates,
re-centring to zero mean, and the progress message every 25 iterations. -/
def tsneStep (P : List (List ℚ)) (learningRate : ℚ) (iterations : ℕ)
    (st : (List Pt × List Pt) × World) (iter : ℕ) : (List Pt × List Pt) × World :=
  let Y := st.1.1
  let vel := st.1.2
  let n := Y.length
  let Qs := computeQ Y
  let exaggeration : ℚ := if iter < 100 then 4 else 1
  let gradients := computeGradients P Qs.1 Qs.2 Y exaggeration
  let currentMomentum : ℚ := if iter < 250 then 1/2 else 4/5
  let newVel := List.zipWith
    (fun (v g : Pt) => (currentMomentum * v.1 - learningRate * g.1,
      currentMomentum * v.2 - learningRate * g.2)) vel gradients
  let moved := List.zipWith (fun (y v : Pt) => (y.1 + v.1, y.2 + v.2)) Y newVel
  let meanX := (moved.map Prod.fst).sum / n
  let meanY := (moved.map Prod.snd).sum / n
  let centred := moved.map fun y => (y.1 - meanX, y.2 - meanY)
  let w1 := if iter % 25 = 0 ∨ iter = iterations - 1 then
    post (Msg.progress (iter + 1) iterations) st.2 else st.2
  ((centred, newVel), w1)

/-- t-SNE worker: `centerData` — subtract the per-dimension mean;
returns the centred rows and the means. -/
def centerData (data : List (List ℚ)) : List (List ℚ) × List ℚ :=
  let n := data.length
  let dims := data.headI.length
  let means := (List.range dims).map fun d =>
    ((data.map fun row => row.getD d 0).sum) / n
  (data.map fun row => row.mapIdx fun d val => val - means.getD d 0, means)

/-- t-SNE worker: `computeCovarianceMatrix` — `covᵢⱼ = Σₖ cₖᵢ·cₖⱼ / (n−1)`
(the source computes the upper triangle and mirrors; the formula is
symmetric). -/
def computeCovarianceMatrix (centered : List (List ℚ)) : List (List ℚ) :=
  let n := centered.length
  let dims := centered.headI.length
  (List.range dims).map fun i => (List.range dims).map fun j =>
    ((centered.map fun row => row.getD i 0 * row.getD j 0).sum) / ((n : ℚ) - 1)

/-- t-SNE worker: `powerIteration` — 100 matrix-vector iterations from a
random start, renormalizing whenever the norm is positive. -/
def powerIteration (fs : JsFuns) (rng : ℕ → ℚ) (matrix : List (List ℚ)) (w : World) :
    List ℚ × World :=
  let dims := matrix.length
  let init := (List.range dims).foldl
    (fun (acc : List ℚ × World) _ =>
      let (r, w1) := randomDraw rng acc.2
      (acc.1 ++ [r - 1/2], w1))
    ([], w)
  ((List.range 100).foldl
    (fun vec _ =>
      let newVec := (List.range dims).map fun i =>
        ((List.range dims).map fun j => mat matrix i j * vec.getD j 0).sum
      let norm := fs.sqrt ((newVec.map fun v => v * v).sum)
      if 0 < norm then newVec.map (· / norm) else vec)
    init.1, init.2)

/-- t-SNE worker: `computeEigenvalue` — Rayleigh quotient of the candidate
eigenvector. -/
def computeEigenvalue (matrix : List (List ℚ)) (eigenvector : List ℚ) : ℚ :=
  let dims := matrix.length
  let numerator := ((List.range dims).map fun i =>
    ((List.range dims).map fun j => mat matrix i j * eigenvector.getD j 0).sum *
      eigenvector.getD i 0).sum
  let denominator := ((List.range dims).map fun i =>
    eigenvector.getD i 0 * eigenvector.getD i 0).sum
  numerator / denominator

/-- t-SNE worker: `deflateMatrix` — remove the found component:
`cov − λ·v·vᵀ`. -/
def deflateMatrix (matrix : List (List ℚ)) (eigenvector : List ℚ) (eigenvalue : ℚ) :
    List (List ℚ) :=
  matrix.mapIdx fun i row => row.mapIdx fun j v =>
    v - eigenvalue * eigenvector.getD i 0 * eigenvector.getD j 0

/-- t-SNE worker: `applyPCA` — centre, extract `targetDims` top
eigenvectors by power iteration with deflation, and project; data whose
dimension is already at most `targetDims` is returned unchanged. -/
def applyPCA (fs : JsFuns) (rng : ℕ → ℚ) (data : List (List ℚ)) (targetDims : ℕ)
    (w : World) : List (List ℚ) × World :=
  if data = [] then ([], w)
  else if data.headI.length ≤ targetDims then (data, w)
  else
    let centered := (centerData data).1
    let loop := (List.range targetDims).foldl
      (fun (acc : (List (List ℚ) × List (List ℚ)) × World) _ =>
        let cov := acc.1.1
        let pw := powerIteration fs rng cov acc.2
        let eigenvector := pw.1
        let eigenvalue := computeEigenvalue cov eigenvector
        ((deflateMatrix cov eigenvector eigenvalue, acc.1.2 ++ [eigenvector]), pw.2))
      ((computeCovarianceMatrix centered, []), w)
    let eigenvectors := loop.1.2
    (centered.map fun row => eigenvectors.map fun ev =>
      ((List.range row.length).map fun i => row.getD i 0 * ev.getD i 0).sum, loop.2)

/-- src/unnamed/part_003: `runTSNE` (PCA variant) — trivial sizes 0 and 1,
PCA to `min(16, dims, n−1)` dimensions, perplexity clamp, P matrix,
random initialization and `iterations` gradient-descent steps. -/
def runTSNE (fs : JsFuns) (rng : ℕ → ℚ) (data : List (List ℚ)) (config : TsneConfig)
    (w : World) : List Pt × World :=
  let n := data.length
  if n = 0 then ([], w)
  else if n = 1 then ([(0, 0)], w)
  else
    let targetPcaDims := min 16 (min data.headI.length (n - 1))
    let pca := applyPCA fs rng data targetPcaDims w
    let reducedData := pca.1
    let perplexity := min config.perplexity (((n - 1) / 3 : ℕ) : ℚ)
    let distances := computeDistances reducedData
    let Pcond := computeProbabilities fs distances perplexity
    let P := symmetrize Pcond
    let init := initializeEmbeddings rng n pca.2
    let velocities : List Pt := List.replicate n (0, 0)
    let final := (List.range config.iterations).foldl
      (tsneStep P config.learningRate config.iterations)
      ((init.1, velocities), init.2)
    (final.1.1, final.2)

/-- src/unnamed/part_003: the t-SNE worker's `self.onmessage` — empty and
singleton requests answered directly, otherwise `runTSNE`; exactly one
`done` message concludes the trace.  (The source wraps `runTSNE` in
`try/catch` with a random fallback; the modelled optimizer is total, so
the catch branch is unreachable in the model.) -/
def onmessage (fs : JsFuns) (rng : ℕ → ℚ) (vectors : List (List ℚ))
    (config : TsneConfig) (w : World) : World :=
  if vectors.length = 0 then post (Msg.done []) w
  else if vectors.length = 1 then post (Msg.done [(0, 0)]) w
  else
    let r := runTSNE fs rng vectors config w
    post (Msg.done r.1) r.2

end PixelSpace.Worker.Tsne

namespace PixelSpace.Worker.Umap

open PixelSpace PixelSpace.Worker

/-- The UMAP request configuration. -/
structure UmapConfig where
  nNeighbors : ℕ
  minDist : ℚ
  nEpochs : ℕ

/-- UMAP worker (src/unnamed/part_003): `squaredDistance`. -/
def squaredDistance (a b : List ℚ) : ℚ :=
  ((List.range a.length).map fun i =>
    let diff := a.getD i 0 - b.getD i 0
    diff * diff).sum

/-- UMAP worker: `createRandomProjection` — a `toDim × fromDim` sparse
ternary matrix: each entry is `±scale·√3` with probability 1/6 each, else
0, with `scale = 1/√toDim`. -/
def createRandomProjection (fs : JsFuns) (rng : ℕ → ℚ) (fromDim toDim : ℕ)
    (w : World) : List (List ℚ) × World :=
  let scale := 1 / fs.sqrt toDim
  (List.range toDim).foldl
    (fun (acc : List (List ℚ) × World) _ =>
      let rowAcc := (List.range fromDim).foldl
        (fun (racc : List ℚ × World) _ =>
          let (r, w1) := randomDraw rng racc.2
          let entry := if r < 1/6 then scale * fs.sqrt 3
            else if r < 2/6 then -(scale * fs.sqrt 3) else 0
          (racc.1 ++ [entry], w1))
        ([], acc.2)
      (acc.1 ++ [rowAcc.1], rowAcc.2))
    ([], w)

/-- UMAP worker: `projectData` — multiply every vector by the projection
matrix (the source skips zero entries, which does not change the sum). -/
def projectData (data : List (List ℚ)) (projMatrix : List (List ℚ)) : List (List ℚ) :=
  data.map fun vec =>
    (List.range projMatrix.length).map fun i =>
      ((List.range vec.length).map fun j =>
        if mat projMatrix i j ≠ 0 then mat projMatrix i j * vec.getD j 0 else 0).sum

/-- One selection step of the partial sort in `findKNearestNeighbors`:
take the first index of minimal distance (strict `<` scan from the start)
and remove it. -/
def selectMin (st : List (ℕ × ℚ) × List (ℕ × ℚ)) : List (ℕ × ℚ) × List (ℕ × ℚ) :=
  match st with
  | (dists, taken) =>
    if dists = [] then (dists, taken)
    else
      let minIdx := (List.range dists.length).foldl
        (fun best p =>
          if (dists.getD p (0, 0)).2 < (dists.getD best (0, 0)).2 then p else best) 0
      (dists.eraseIdx minIdx, taken ++ [dists.getD minIdx (0, 0)])

/-- UMAP worker: `findKNearestNeighbors` — for each point, the distances to
all other points in index order, then `k` partial-sort selections; returns
neighbour indices and their (square-rooted) distances. -/
def findKNearestNeighbors (fs : JsFuns) (data : List (List ℚ)) (k : ℕ) :
    List (List ℕ) × List (List ℚ) :=
  let n := data.length
  let rows := (List.range n).map fun i =>
    let dists := ((List.range n).filter fun j => j ≠ i).map fun j =>
      (j, squaredDistance (data.getD i []) (data.getD j []))
    let sel := (List.range k).foldl (fun st _ => selectMin st) (dists, [])
    sel.2
  (rows.map fun r => r.map Prod.fst, rows.map fun r => r.map fun d => fs.sqrt d.2)

/-- UMAP worker: `computeMembershipStrengths` — per point, `rho` is the
nearest distance, `sigma` the simplified local scale (span of the
neighbour distances, floored at 1), each neighbour contributing weight
`exp(−max(0, d − rho)/sigma)`; symmetric duplicate edges are dropped via
the ordered-pair key set. -/
def computeMembershipStrengths (fs : JsFuns) (indices : List (List ℕ))
    (distances : List (List ℚ)) : List ℕ × List ℕ × List ℚ :=
  let n := indices.length
  let final := (List.range n).foldl
    (fun (acc : Finset (ℕ × ℕ) × List ℕ × List ℕ × List ℚ) i =>
      let localDists := distances.getD i []
      let rho := if localDists.length > 0 then localDists.getD 0 0 else 0
      let sigma0 := if localDists.length > 1 then
        localDists.getD (localDists.length - 1) 0 - rho else 1
      let sigma := if sigma0 ≤ 0 then 1 else sigma0
      (List.range (indices.getD i []).length).foldl
        (fun acc2 k =>
          let j := (indices.getD i []).getD k 0
          let d := max 0 (localDists.getD k 0 - rho)
          let wt := fs.exp (-d / sigma)
          let key := if i < j then (i, j) else (j, i)
          if key ∈ acc2.1 then acc2
          else (insert key acc2.1, acc2.2.1 ++ [i], acc2.2.2.1 ++ [j], acc2.2.2.2 ++ [wt]))
        acc)
    (∅, [], [], [])
  final.2

/-- UMAP worker: `initializeEmbeddings` — `n` points with coordinates
`(random − 0.5) · 10`. -/
def initializeEmbeddings (rng : ℕ → ℚ) (n : ℕ) (w : World) : List Pt × World :=
  (List.range n).foldl
    (fun (acc : List Pt × World) _ =>
      let (rx, w1) := randomDraw rng acc.2
      let (ry, w2) := randomDraw rng w1
      (acc.1 ++ [((rx - 1/2) * 10, (ry - 1/2) * 10)], w2))
    ([], w)

/-- The clamp to `[-4, 4]` applied to every gradient coefficient. -/
def clamp4 (g : ℚ) : ℚ := max (-4) (min 4 g)

/-- One negative sample of `optimizeLayout`: a random point `k`, skipped
when it hits either endpoint, otherwise a clamped repulsive update of
endpoint `i` only. -/
def negativeSample (fs : JsFuns) (rng : ℕ → ℚ) (a b alpha : ℚ) (n i j : ℕ)
    (st : List Pt × World) : List Pt × World :=
  let (r, w1) := randomDraw rng st.2
  let k := (Rat.floor (r * n)).toNat
  if k = i ∨ k = j then (st.1, w1)
  else
    let yi := st.1.getD i (0, 0)
    let yk := st.1.getD k (0, 0)
    let dxN := yi.1 - yk.1
    let dyN := yi.2 - yk.2
    let distSqN := dxN * dxN + dyN * dyN + 1/1000
    let gradCoefN := (2 * b) / ((1/1000 + distSqN) * (1 + a * fs.pow distSqN b))
    let gradN := clamp4 gradCoefN
    (st.1.set i (yi.1 + alpha * gradN * dxN, yi.2 + alpha * gradN * dyN), w1)

/-- One edge visit of `optimizeLayout`: clamped attractive update of both
endpoints (equal and opposite), then 5 negative samples repelling
endpoint `i`. -/
def edgeStep (fs : JsFuns) (rng : ℕ → ℚ) (a b alpha : ℚ) (n : ℕ)
    (head tail : List ℕ) (st : List Pt × World) (edgeIdx : ℕ) : List Pt × World :=
  let i := head.getD edgeIdx 0
  let j := tail.getD edgeIdx 0
  let yi := st.1.getD i (0, 0)
  let yj := st.1.getD j (0, 0)
  let dx := yi.1 - yj.1
  let dy := yi.2 - yj.2
  let distSq := dx * dx + dy * dy + 1/1000
  let gradCoef := (-2 * a * b * fs.pow distSq (b - 1)) / (1 + a * fs.pow distSq b)
  let grad := clamp4 gradCoef
  let moved := (st.1.set i (yi.1 + alpha * grad * dx, yi.2 + alpha * grad * dy)).set j
    (yj.1 - alpha * grad * dx, yj.2 - alpha * grad * dy)
  (List.range 5).foldl (fun st2 _ => negativeSample fs rng a b alpha n i j st2)
    (moved, st.2)

/-- One epoch of `optimizeLayout`: decayed `alpha = alpha0·(1 − epoch/nEpochs)`,
one `edgeStep` per edge in sorted order, the progress/log posts every 10
epochs and at the last, and the applied `alpha` recorded. -/
def epochStep (fs : JsFuns) (rng : ℕ → ℚ) (a b alpha0 : ℚ) (n : ℕ)
    (head tail edgeOrder : List ℕ) (nEpochs : ℕ)
    (st : (List Pt × List ℚ) × World) (epoch : ℕ) : (List Pt × List ℚ) × World :=
  let alpha := alpha0 * (1 - (epoch : ℚ) / (nEpochs : ℚ))
  let afterEdges := edgeOrder.foldl (edgeStep fs rng a b alpha n head tail)
    (st.1.1, st.2)
  let w1 := if epoch % 10 = 0 ∨ epoch = nEpochs - 1 then
    post (Msg.progress (epoch + 1) nEpochs) (post Msg.log afterEdges.2)
  else afterEdges.2
  ((afterEdges.1, st.1.2 ++ [alpha]), w1)

/-- UMAP worker: `optimizeLayout` — curve constants from `minDist`, edges
sorted by descending weight (stably, as JS sort), and `nEpochs` epochs of
`epochStep`; progress (preceded by a log line) is posted every 10 epochs
and at the last.  Besides the final embeddings, the list of the `alpha`
coefficients applied, one per executed epoch, is returned as an
observation of the loop. -/
def optimizeLayout (fs : JsFuns) (rng : ℕ → ℚ) (embeddings : List Pt)
    (head tail : List ℕ) (weights : List ℚ) (nEpochs : ℕ) (minDist : ℚ)
    (w : World) : (List Pt × List ℚ) × World :=
  let n := embeddings.length
  let nEdges := head.length
  let a : ℚ := 1.929 - 3.52 * minDist + 5.73 * minDist * minDist
  let b : ℚ := 0.7915 + 0.2045 * minDist
  let edgeOrder := PixelSpace.Gallery.stableSort
    (fun x y => decide (weights.getD y 0 < weights.getD x 0)) (List.range nEdges)
  (List.range nEpochs).foldl
    (epochStep fs rng a b 1 n head tail edgeOrder nEpochs)
    ((embeddings, []), w)

/-- src/unnamed/part_003: `runUMAP` — the trivial branches for
`n ∈ {0, 1, 2}` and `n ≤ 5`, then random projection (when the dimension
exceeds `min(32, dims)`), k-NN, fuzzy graph, random initialization and
`min(nEpochs, 50)` optimization epochs.  The second component is the
observed per-epoch `alpha` list of `optimizeLayout` (empty on the trivial
branches). -/
def runUMAP (fs : JsFuns) (rng : ℕ → ℚ) (data : List (List ℚ)) (config : UmapConfig)
    (w : World) : (List Pt × List ℚ) × World :=
  let n := data.length
  let w0 := post Msg.log (post Msg.log w)
  if n = 0 then (([], []), post Msg.log w0)
  else if n = 1 then (([(0, 0)], []), post Msg.log w0)
  else if n = 2 then (([(-5, 0), (5, 0)], []), post Msg.log w0)
  else if n ≤ 5 then
    let w1 := post Msg.log w0
    let layout := data.foldl
      (fun (acc : List Pt × World) _ =>
        let (rx, wa) := randomDraw rng acc.2
        let (ry, wb) := randomDraw rng wa
        (acc.1 ++ [((rx - 1/2) * 20, (ry - 1/2) * 20)], wb))
      ([], w1)
    ((layout.1, []), layout.2)
  else
    let dims := data.headI.length
    let targetDim := min 32 dims
    let proj := if targetDim < dims then
      let w1 := post Msg.log w0
      let pm := createRandomProjection fs rng dims targetDim w1
      (projectData data pm.1, post Msg.log pm.2)
    else (data, post Msg.log w0)
    let projectedData := proj.1
    let k := min config.nNeighbors (min ((n - 1) / 2) 15)
    let w2 := post Msg.log proj.2
    let knn := findKNearestNeighbors fs projectedData k
    let w3 := post Msg.log (post Msg.log w2)
    let graph := computeMembershipStrengths fs knn.1 knn.2
    let w4 := post Msg.log (post Msg.log w3)
    let init := initializeEmbeddings rng n w4
    let epochs := min config.nEpochs 50
    let w5 := post Msg.log init.2
    let opt := optimizeLayout fs rng init.1 graph.1 graph.2.1 graph.2.2 epochs
      config.minDist w5
    ((opt.1.1, opt.1.2), post Msg.log (post Msg.log opt.2))

/-- src/unnamed/part_003: the UMAP worker's `self.onmessage` — empty and
singleton requests answered directly (each preceded by log lines),
otherwise `runUMAP`; exactly one `done` message concludes the trace.  (The
`try/catch` random fallback is unreachable: the modelled optimizer is
total.) -/
def onmessage (fs : JsFuns) (rng : ℕ → ℚ) (vectors : List (List ℚ))
    (config : UmapConfig) (w : World) : World :=
  let w0 := post Msg.log w
  if vectors.length = 0 then post (Msg.done []) (post Msg.log w0)
  else if vectors.length = 1 then post (Msg.done [(0, 0)]) (post Msg.log w0)
  else
    let r := runUMAP fs rng vectors config w0
    post (Msg.done r.1.1) (post Msg.log r.2)

end PixelSpace.Worker.Umap

namespace PixelSpace

/-- The rounding used by `jsRound` is the floor of `q + 1/2`. -/
theorem jsRound_eq_floor (q : ℚ) : jsRound q = ⌊q + 1/2⌋ := by
  rw [jsRound, Rat.floor_def, ← Rat.floor_def']

/-- Reading at a natural index is `List.get?`. -/
theorem zget_natCast {α : Type} (l : List α) (k : ℕ) : zget l (k : ℤ) = l.get? k := by
  by_cases h : k < l.length
  · rw [zget, dif_pos (by simpa using h)]
    simp [List.get?_eq_get h]
  · rw [zget, dif_neg (by simpa using h), List.get?_eq_none.mpr (by omega)]

/-- Reading a mapped range at an in-range natural index. -/
theorem zget_range_map {α : Type} (f : ℕ → α) (n k : ℕ) (hk : k < n) :
    zget ((List.range n).map f) (k : ℤ) = some (f k) := by
  rw [zget_natCast]
  simp [List.get?_eq_getElem?, List.getElem?_map, List.getElem?_range hk]

/-- Reading a mapped range at an in-range integer index. -/
theorem zget_range_map_int {α : Type} (f : ℕ → α) (n : ℕ) (i : ℤ) (h0 : 0 ≤ i)
    (hn : i < n) : zget ((List.range n).map f) i = some (f i.toNat) := by
  obtain ⟨k, rfl⟩ : ∃ k : ℕ, i = (k : ℤ) := ⟨i.toNat, by omega⟩
  simp only [Int.toNat_natCast]
  exact zget_range_map f n k (by exact_mod_cast hn)

/-- A read beyond the bounds is `none`. -/
theorem zget_eq_none {α : Type} (l : List α) (i : ℤ)
    (h : ¬ (0 ≤ i ∧ i.toNat < l.length)) : zget l i = none := by
  rw [zget, dif_neg h]

/-- `oadd` is associative (as the exact model of finite-double addition). -/
theorem oadd_assoc (a b c : JsNum) : oadd (oadd a b) c = oadd a (oadd b c) := by
  cases a <;> cases b <;> cases c <;> simp [oadd] <;> ring

/-- `oadd` is commutative. -/
theorem oadd_comm (a b : JsNum) : oadd a b = oadd b a := by
  cases a <;> cases b <;> simp [oadd] <;> ring

instance : Std.Associative oadd := ⟨oadd_assoc⟩

instance : Std.Commutative oadd := ⟨oadd_comm⟩

/-- Summing pointwise-`some` values yields `some` of the rational sum. -/
theorem osum_map_some {α : Type} (f : α → ℚ) (l : List α) :
    osum (l.map fun q => some (f q)) = some ((l.map f).sum) := by
  induction l using List.reverseRecOn with
  | nil => simp [osum]
  | append_singleton t x ih => simp [osum, List.foldl_append, oadd] at ih ⊢; simp [ih]

/-- Reading a replicated list in range. -/
theorem zget_replicate {α : Type} (a : α) (n : ℕ) (i : ℤ) (h0 : 0 ≤ i) (hn : i < n) :
    zget (List.replicate n a) i = some a := by
  obtain ⟨k, rfl⟩ : ∃ k : ℕ, i = (k : ℤ) := ⟨i.toNat, by omega⟩
  rw [zget_natCast]
  simp [List.get?_eq_getElem?, List.getElem?_replicate, show k < n by exact_mod_cast hn]

/-- A fold whose step fixes the accumulator returns it unchanged. -/
theorem foldl_fixed {α β : Type} (f : β → α → β) (l : List α) (b : β)
    (h : ∀ a ∈ l, f b a = b) : l.foldl f b = b := by
  induction l with
  | nil => rfl
  | cons x t ih =>
    rw [List.foldl_cons, h x (List.mem_cons_self x t)]
    exact ih fun a ha => h a (List.mem_cons_of_mem x ha)

/-- A list sum over a range as a `Finset` sum. -/
theorem listSum_range {M : Type} [AddCommMonoid M] (f : ℕ → M) (n : ℕ) :
    ((List.range n).map f).sum = ∑ i ∈ Finset.range n, f i := by
  induction n with
  | zero => simp
  | succ m ih =>
    rw [List.range_succ, List.map_append, List.sum_append, Finset.sum_range_succ, ih]
    simp

end PixelSpace

namespace PixelSpace.Claims

open PixelSpace PixelSpace.Palette PixelSpace.Gallery PixelSpace.Invariant

/-- The length of `normalizePixels` is always 256. -/
theorem normalizePixels_length (pixels : List ℤ) : (normalizePixels pixels).length = 256 := by
  unfold normalizePixels
  set normalized := if isLegacyBWFormat pixels then convertLegacyPixels pixels else pixels
  by_cases h1 : normalized.length < 256
  · simp [h1]
    omega
  · by_cases h2 : 256 < normalized.length
    · simp [h1, h2]
      omega
    · simp [h1, h2]
      omega

/-- Every entry of `normalizePixels` is a colour index in `0..7`. -/
theorem normalizePixels_mem (pixels : List ℤ) :
    ∀ v ∈ normalizePixels pixels, 0 ≤ v ∧ v ≤ 7 := by
  intro v hv
  unfold normalizePixels at hv
  simp only [List.mem_map] at hv
  obtain ⟨x, _, rfl⟩ := hv
  by_cases hx : x < 0 ∨ (NUM_COLORS : ℤ) ≤ x
  · simp [hx, COLOR_WHITE]
  · rw [if_neg hx]
    push_neg at hx
    have h8 : (NUM_COLORS : ℤ) = 8 := rfl
    omega

/-- Claim C7, counterexample: the input consisting of 256 copies of the
out-of-range colour index 8 is normalized to all-black (0), not to the
background index 1 — out-of-range values above 7 trigger the legacy
grayscale path, whose threshold maps 8 to black. -/
theorem claim_C7_counterexample :
    normalizePixels (List.replicate 256 8) = List.replicate 256 COLOR_BLACK ∧
      COLOR_BLACK ≠ COLOR_WHITE := by
  constructor
  · decide
  · decide

/-- Claim C7 (amended): for every integer input array, `normalizePixels`
returns an array of exactly 256 entries without throwing, each a valid
colour index in `0..7` (short inputs padded with background, long inputs
truncated); an input containing a value above 7 is treated as legacy
grayscale and thresholded to black/white, and otherwise any out-of-range
(negative) entry is replaced with the background index 1. -/
theorem claim_C7_normalize (pixels : List ℤ) :
    (normalizePixels pixels).length = 256 ∧
      ∀ v ∈ normalizePixels pixels, 0 ≤ v ∧ v ≤ 7 :=
  ⟨normalizePixels_length pixels, normalizePixels_mem pixels⟩

/-- On the all-background input no cell is content: every read returns the
White index. -/
theorem contentCells_allBackground : contentCells (List.replicate 256 1) = [] := by
  rw [contentCells, List.filter_eq_nil_iff]
  intro k hk
  rw [List.mem_range] at hk
  rw [isContent, zget_replicate 1 256 (k : ℤ) (by positivity) (by exact_mod_cast hk)]
  simp [COLOR_WHITE]

/-- The structural vector of the all-background input, for any
interpretation of `Math.sqrt`. -/
theorem structuralFeatures_allBackground (sqrtF : ℚ → ℚ) :
    structuralFeatures sqrtF (List.replicate 256 1) =
      [some 0, some 0, some (1/2), some 0, some 0, some 0] := by
  simp only [structuralFeatures, contentCells_allBackground]
  norm_num [odiv]

/-- The all-background input produces no connected components. -/
theorem componentSizes_allBackground :
    componentSizes (List.replicate 256 1) = [] := by
  rw [componentSizes, List.length_replicate,
    foldl_fixed (componentStep (List.replicate 256 1))]
  intro a ha
  have ha' : (a : ℤ) < 256 := by exact_mod_cast List.mem_range.mp ha
  rw [componentStep, zget_replicate 1 256 (a : ℤ) (by positivity) ha']
  exact if_neg (by simp [COLOR_WHITE])

/-- The connected-component vector of the all-background input. -/
theorem connectedComponentFeatures_allBackground :
    connectedComponentFeatures (List.replicate 256 1) =
      [some 0, some 0, some 0, some 0] := by
  rw [connectedComponentFeatures, componentSizes_allBackground]

unseal Rat.mul Rat.inv Rat.add Rat.sub in
/-- Claim C5, counterexample: on the all-background input the third
structural scalar (half the bounding-box aspect ratio) is 1/2, not zero —
the source defaults the aspect ratio of an empty bounding box to 1. -/
theorem claim_C5_counterexample :
    (structuralFeatures id (List.replicate 256 1)).getD 2 none = some (1/2) ∧
      some ((1 : ℚ)/2) ≠ some (0 : ℚ) := by
  constructor
  · rw [structuralFeatures_allBackground id]
    rfl
  · decide

/-- Claim C5 (amended): on the all-background input every structural
scalar of the enhanced extractor resolves to zero — except the
bounding-box aspect/2 term, which resolves to 1/2 because the empty
bounding box defaults to aspect ratio 1 — and every connected-component
scalar resolves to zero; no entry is NaN. -/
theorem claim_C5_allBackground (sqrtF : ℚ → ℚ) :
    structuralFeatures sqrtF (List.replicate 256 1) =
      [some 0, some 0, some (1/2), some 0, some 0, some 0] ∧
      connectedComponentFeatures (List.replicate 256 1) =
        [some 0, some 0, some 0, some 0] :=
  ⟨structuralFeatures_allBackground sqrtF, connectedComponentFeatures_allBackground⟩

end PixelSpace.Claims

namespace PixelSpace.Claims

open PixelSpace PixelSpace.Palette PixelSpace.Gallery PixelSpace.Invariant

/-- The indicator sum over the 8 colour bins of a single in-range value. -/
theorem sum_indicator_bins (x : ℤ) (h0 : 0 ≤ x) (h7 : x ≤ 7) :
    ∑ c ∈ Finset.range 8, (if x = (c : ℤ) then 1 else 0) = 1 := by
  interval_cases x <;>
    simp only [Finset.sum_range_succ, Finset.sum_range_zero] <;> norm_num

/-- In-range values fill exactly the 8 histogram bins: the bin counts sum
to the list length. -/
theorem sum_count_bins (l : List ℤ) (h : ∀ v ∈ l, 0 ≤ v ∧ v ≤ 7) :
    ∑ c ∈ Finset.range 8, l.count (c : ℤ) = l.length := by
  induction l with
  | nil => simp
  | cons x t ih =>
    have hx := h x (List.mem_cons_self x t)
    have ht := ih fun v hv => h v (List.mem_cons_of_mem x hv)
    simp only [List.count_cons, List.length_cons]
    rw [Finset.sum_add_distrib, ht]
    have := sum_indicator_bins x hx.1 hx.2
    simp only [beq_iff_eq] at *
    omega

/-- The colour-histogram sub-vector of the enhanced feature vector sums
exactly to the colour-histogram group weight. -/
theorem histogram_weight_sum (sqrtF : ℚ → ℚ) (pixels : List ℤ) (w : Weights) :
    osum ((extractEnhancedFeatures sqrtF pixels w).take 8) = some w.colorHist := by
  have hlen := normalizePixels_length pixels
  have hmem := normalizePixels_mem pixels
  set nl := normalizePixels pixels with hnl
  have htake : (extractEnhancedFeatures sqrtF pixels w).take 8 =
      applyWeight (colorHistogram nl) w.colorHist := by
    rw [extractEnhancedFeatures]
    rw [List.append_assoc, List.append_assoc, List.append_assoc, List.append_assoc]
    rw [← hnl]
    have h8 : (applyWeight (colorHistogram nl) w.colorHist).length = 8 := by
      rw [applyWeight, List.length_map, colorHistogram, List.length_map,
        List.length_range]
      rfl
    rw [List.take_left' h8]
  rw [htake]
  have hform : applyWeight (colorHistogram nl) w.colorHist =
      (List.range 8).map fun (c : ℕ) =>
        some ((nl.count ((c : ℕ) : ℤ) : ℚ) / 256 * w.colorHist) := by
    rw [colorHistogram, applyWeight, List.map_map]
    apply List.map_congr_left
    intro c _
    simp only [Function.comp_apply, hlen]
    rw [odiv]
    norm_num [omul]
  rw [hform, osum_map_some (fun (c : ℕ) => (nl.count ((c : ℕ) : ℤ) : ℚ) / 256 * w.colorHist)]
  congr 1
  rw [listSum_range, ← Finset.sum_mul, ← Finset.sum_div, ← Nat.cast_sum,
    sum_count_bins nl hmem, hlen]
  norm_num

/-- Claim C8, counterexample: with colour-histogram weight 2 (a strictly
positive weight) the 8-entry histogram sub-vector of the enhanced feature
vector sums to 2, not 1 — the sub-vector is scaled by its group weight. -/
theorem claim_C8_counterexample :
    osum ((extractEnhancedFeatures id (List.replicate 256 1)
      ⟨2, 1, 1, 1, 1, 1⟩).take 8) = some 2 ∧ some (2 : ℚ) ≠ some (1 : ℚ) :=
  ⟨histogram_weight_sum id (List.replicate 256 1) ⟨2, 1, 1, 1, 1, 1⟩, by norm_num⟩

/-- Claim C8 (amended): for every pixel input and every weight
configuration, the 8-entry colour-histogram sub-vector of the enhanced
feature vector sums exactly (in exact arithmetic) to the colour-histogram
group weight — hence to 1.0 precisely when that weight is 1. -/
theorem claim_C8_histogram_sum (sqrtF : ℚ → ℚ) (pixels : List ℤ) (w : Weights) :
    osum ((extractEnhancedFeatures sqrtF pixels w).take 8) = some w.colorHist :=
  histogram_weight_sum sqrtF pixels w

end PixelSpace.Claims

namespace PixelSpace.Claims

open PixelSpace PixelSpace.Palette PixelSpace.Gallery PixelSpace.Invariant

/-- Reading through a `map` commutes with the read. -/
theorem zget_map {α β : Type} (f : α → β) (l : List α) (i : ℤ) :
    zget (l.map f) i = (zget l i).map f := by
  rw [zget, zget]
  by_cases h : 0 ≤ i ∧ i.toNat < l.length
  · rw [dif_pos (by simpa using h), dif_pos h]
    simp
  · rw [dif_neg (by simpa using h), dif_neg h]
    simp

/-- A guarded division of finite values is finite. -/
theorem odiv_some_ne_none (a b : ℚ) (hb : b ≠ 0) : odiv (some a) (some b) ≠ none := by
  rw [odiv, if_neg hb]
  simp

/-- A guarded division of a finite numerator by a nonzero constant is
finite. -/
theorem odiv_ne_none_of (x : JsNum) (b : ℚ) (hx : x ≠ none) (hb : b ≠ 0) :
    odiv x (some b) ≠ none := by
  obtain ⟨a, ha⟩ := Option.ne_none_iff_exists'.mp hx
  rw [ha]
  exact odiv_some_ne_none a b hb

/-- A fold of `oadd` starting from a finite value over finite values is
finite. -/
theorem osum_ne_none (l : List JsNum) (h : ∀ x ∈ l, x ≠ none) : osum l ≠ none := by
  rw [osum]
  suffices hgen : ∀ (lst : List JsNum), (∀ x ∈ lst, x ≠ none) → ∀ (q : ℚ),
      lst.foldl oadd (some q) ≠ none from hgen l h 0
  intro lst
  induction lst with
  | nil => intro _ q; simp
  | cons x t ih =>
    intro hall q
    obtain ⟨a, ha⟩ := Option.ne_none_iff_exists'.mp (hall x (List.mem_cons_self x t))
    rw [List.foldl_cons, ha, oadd]
    exact ih (fun y hy => hall y (List.mem_cons_of_mem x hy)) _

/-- Finiteness of all colour-histogram entries (the input has the
normalized length 256). -/
theorem colorHistogram_some (l : List ℤ) (hl : l.length = 256) :
    ∀ x ∈ colorHistogram l, x ≠ none := by
  intro x hx
  simp only [colorHistogram, List.mem_map] at hx
  obtain ⟨c, -, rfl⟩ := hx
  rw [hl]
  exact odiv_some_ne_none _ _ (by norm_num)

/-- Finiteness of all colour-adjacency entries: the denominator is the
`|| 1`-guarded total. -/
theorem colorAdjacencyMatrix_some (l : List ℤ) :
    ∀ x ∈ colorAdjacencyMatrix l, x ≠ none := by
  intro x hx
  simp only [colorAdjacencyMatrix, List.mem_map] at hx
  obtain ⟨v, -, rfl⟩ := hx
  apply odiv_some_ne_none
  split_ifs with h
  · norm_num
  · exact h

/-- Finiteness of the four symmetry scores. -/
theorem symmetryFeatures_some (l : List ℤ) : ∀ x ∈ symmetryFeatures l, x ≠ none := by
  intro x hx
  simp only [symmetryFeatures, List.mem_cons, List.not_mem_nil, or_false] at hx
  rcases hx with rfl | rfl | rfl | rfl <;> exact odiv_some_ne_none _ _ (by norm_num)

/-- Finiteness of the six structural scalars: every division is guarded. -/
theorem structuralFeatures_some (sqrtF : ℚ → ℚ) (l : List ℤ) :
    ∀ x ∈ structuralFeatures sqrtF l, x ≠ none := by
  intro x hx
  simp only [structuralFeatures, List.mem_cons, List.not_mem_nil, or_false] at hx
  rcases hx with rfl | rfl | rfl | rfl | rfl | rfl
  · exact odiv_some_ne_none _ _ (by norm_num)
  · exact odiv_some_ne_none _ _ (by norm_num)
  · apply odiv_ne_none_of _ 2 ?_ (by norm_num)
    split_ifs <;>
      first
        | omega
        | exact Option.some_ne_none _
        | exact odiv_some_ne_none _ _ (by positivity)
  · exact odiv_some_ne_none _ _ (by norm_num)
  · simp
  · exact odiv_some_ne_none _ _ (by norm_num)

/-- Finiteness of the four connected-component scalars. -/
theorem connectedComponentFeatures_some (l : List ℤ) (hl : l.length = 256) :
    ∀ x ∈ connectedComponentFeatures l, x ≠ none := by
  intro x hx
  rw [connectedComponentFeatures] at hx
  have h256 : ((l.length : ℚ)) ≠ 0 := by rw [hl]; norm_num
  rcases hsz : componentSizes l with - | ⟨s, rest⟩ <;> rw [hsz] at hx
  · simp only [List.mem_cons, List.not_mem_nil, or_false] at hx
    rcases hx with rfl | rfl | rfl | rfl <;> simp
  · simp only [List.mem_cons, List.not_mem_nil, or_false] at hx
    rcases hx with rfl | rfl | rfl | rfl
    · simp
    · exact odiv_some_ne_none _ _ h256
    · exact odiv_some_ne_none _ _ h256
    · have hnum : (((s :: rest).length : ℚ)) ≠ 0 := by
        rw [List.length_cons]
        positivity
      rw [odiv, if_neg hnum]
      exact odiv_some_ne_none _ _ h256

/-- Finiteness of the 16 spatial-density entries. -/
theorem downsampledSpatial_some (l : List ℤ) : ∀ x ∈ downsampledSpatial l, x ≠ none := by
  intro x hx
  simp only [downsampledSpatial, List.mem_map] at hx
  obtain ⟨b, -, rfl⟩ := hx
  exact odiv_some_ne_none _ _ (by norm_num)

/-- Finiteness is preserved by the group-weight scaling. -/
theorem applyWeight_some (l : List JsNum) (w : ℚ) (h : ∀ x ∈ l, x ≠ none) :
    ∀ x ∈ applyWeight l w, x ≠ none := by
  intro x hx
  simp only [applyWeight, List.mem_map] at hx
  obtain ⟨y, hy, rfl⟩ := hx
  obtain ⟨a, rfl⟩ := Option.ne_none_iff_exists'.mp (h y hy)
  simp [omul]

end PixelSpace.Claims

namespace PixelSpace.Claims

open PixelSpace PixelSpace.Palette PixelSpace.Gallery PixelSpace.Invariant

/-- A grid every one of whose first 256 reads is defined. -/
def DefinedGrid (g : List (Option ℚ)) : Prop :=
  ∀ i : ℤ, 0 ≤ i → i < 256 → (jread g i).isSome

/-- Encoding preserves the length of the pixel array. -/
theorem pixelsToEncodedValues_length (pixels : List ℤ) :
    (pixelsToEncodedValues pixels).length = pixels.length := by
  rw [pixelsToEncodedValues]
  split_ifs with h <;> simp [convertLegacyPixels] <;> split_ifs <;> simp

/-- Reading an in-range entry of a mapped range, flattened. -/
theorem jread_range_map (f : ℕ → Option ℚ) (n : ℕ) (i : ℤ) (h0 : 0 ≤ i) (hn : i < n) :
    jread ((List.range n).map f) i = f i.toNat := by
  rw [jread, zget_range_map_int f n i h0 hn]
  rfl

/-- The centred grid of a long-enough encoding has only defined reads. -/
theorem centerDrawing_defined (enc : List ℚ) (h : 256 ≤ enc.length) :
    DefinedGrid (centerDrawing enc) := by
  intro i h0 hn
  rw [centerDrawing]
  split_ifs with htw
  · rw [jread, zget_map]
    rw [zget, dif_pos ⟨h0, by omega⟩]
    rfl
  · rw [shiftGrid, jread_range_map _ 256 i h0 hn]
    dsimp only
    split_ifs with hcond
    · obtain ⟨ha, hb, hc, hd⟩ := hcond
      rw [zget, dif_pos ⟨by omega, by omega⟩]
      rfl
    · rfl

/-- `rotate90` at grid size 16 maps defined grids to defined grids. -/
theorem rotate90_defined (g : List (Option ℚ)) (hg : DefinedGrid g) :
    DefinedGrid (rotate90 g 16) := by
  intro i h0 hn
  rw [rotate90, show (16 : ℕ) * 16 = 256 from rfl, jread_range_map _ 256 i h0 hn]
  exact hg _ (by push_cast; omega) (by push_cast; omega)

/-- `flipH` at grid size 16 maps defined grids to defined grids. -/
theorem flipH_defined (g : List (Option ℚ)) (hg : DefinedGrid g) :
    DefinedGrid (flipH g 16) := by
  intro i h0 hn
  rw [flipH, show (16 : ℕ) * 16 = 256 from rfl, jread_range_map _ 256 i h0 hn]
  exact hg _ (by push_cast; omega) (by push_cast; omega)

/-- All eight orientation variants of a defined grid are defined. -/
theorem getAllVariants_defined (g : List (Option ℚ)) (hg : DefinedGrid g) :
    ∀ v ∈ getAllVariants g 16, DefinedGrid v := by
  intro v hv
  rw [getAllVariants] at hv
  have h1 := rotate90_defined g hg
  have h2 := rotate90_defined _ h1
  have h3 := rotate90_defined _ h2
  simp only [List.mem_cons, List.not_mem_nil, or_false] at hv
  rcases hv with rfl | rfl | rfl | rfl | rfl | rfl | rfl | rfl
  · exact hg
  · exact flipH_defined g hg
  · exact h1
  · exact flipH_defined _ h1
  · exact h2
  · exact flipH_defined _ h2
  · exact h3
  · exact flipH_defined _ h3

/-- The downsampling of a defined grid has no undefined entry. -/
theorem downsample_some (g : List (Option ℚ)) (hg : DefinedGrid g) :
    ∀ x ∈ downsample g, x ≠ none := by
  intro x hx
  simp only [downsample, List.mem_map] at hx
  obtain ⟨k, hk, rfl⟩ := hx
  rw [List.mem_range] at hk
  have hb : k / 8 < 8 := by omega
  have hc : k % 8 < 8 := by omega
  have hidx : ∀ (d : ℤ), 0 ≤ d → d ≤ 17 →
      ((jread g ((k / 8 : ℕ) * 2 * 16 + (k % 8 : ℕ) * 2 + d)).isSome) := by
    intro d hd0 hd17
    exact hg _ (by push_cast; omega) (by push_cast; omega)
  have h0 := hidx 0 (by norm_num) (by norm_num)
  have h1 := hidx 1 (by norm_num) (by norm_num)
  have h16 := hidx 16 (by norm_num) (by norm_num)
  have h17 := hidx 17 (by norm_num) (by norm_num)
  simp only [add_zero] at h0
  obtain ⟨a0, ha0⟩ := Option.isSome_iff_exists.mp h0
  obtain ⟨a1, ha1⟩ := Option.isSome_iff_exists.mp h1
  obtain ⟨a16, ha16⟩ := Option.isSome_iff_exists.mp h16
  obtain ⟨a17, ha17⟩ := Option.isSome_iff_exists.mp h17
  rw [ha0, ha1, ha16, ha17, oadd, oadd, oadd]
  exact odiv_some_ne_none _ _ (by norm_num)

/-- The averaged orientation-variant vector of a defined grid has no
undefined entry. -/
theorem avgOfVariants_some (g : List (Option ℚ)) (hg : DefinedGrid g) :
    ∀ x ∈ avgOfVariants g, x ≠ none := by
  intro x hx
  simp only [avgOfVariants, List.mem_map] at hx
  obtain ⟨i, hi, rfl⟩ := hx
  rw [List.mem_range] at hi
  apply osum_ne_none
  intro y hy
  simp only [List.map_map, List.mem_map] at hy
  obtain ⟨v, hv, rfl⟩ := hy
  have hvd := getAllVariants_defined g hg v hv
  apply odiv_ne_none_of _ 8 ?_ (by norm_num)
  rw [downsample, jread_range_map _ 64 _ (by positivity) (by exact_mod_cast hi)]
  simp only [Int.toNat_natCast]
  exact downsample_some v hvd _ (by
    rw [downsample]
    exact List.mem_map_of_mem _ (List.mem_range.mpr hi))

unseal Rat.mul Rat.inv Rat.add Rat.sub in
/-- Claim C1, counterexample: for the empty pixel array (a malformed
input), the invariant extractor produces NaN entries — its first entry is
undefined, because the invariant path never length-normalizes its input. -/
theorem claim_C1_counterexample :
    (extractInvariantFeatures ([] : List ℤ)).get? 0 = some none ∧
      (extractInvariantFeatures ([] : List ℤ)).length = 64 := by
  constructor
  · decide
  · decide

/-- The length of each feature group of the enhanced extractor. -/
theorem colorHistogram_length (l : List ℤ) : (colorHistogram l).length = 8 := by
  simp [colorHistogram, NUM_COLORS]

/-- The adjacency group has 64 entries. -/
theorem colorAdjacencyMatrix_length (l : List ℤ) :
    (colorAdjacencyMatrix l).length = 64 := by
  simp [colorAdjacencyMatrix]

/-- The symmetry group has 4 entries. -/
theorem symmetryFeatures_length (l : List ℤ) : (symmetryFeatures l).length = 4 := rfl

/-- The structural group has 6 entries. -/
theorem structuralFeatures_length (sqrtF : ℚ → ℚ) (l : List ℤ) :
    (structuralFeatures sqrtF l).length = 6 := rfl

/-- The connected-component group has 4 entries. -/
theorem connectedComponentFeatures_length (l : List ℤ) :
    (connectedComponentFeatures l).length = 4 := by
  rw [connectedComponentFeatures]
  rcases hsz : componentSizes l with - | ⟨s, rest⟩ <;> simp

/-- The spatial group has 16 entries. -/
theorem downsampledSpatial_length (l : List ℤ) : (downsampledSpatial l).length = 16 := by
  simp [downsampledSpatial]

/-- Claim C1 (amended): the enhanced extractor returns exactly 102 entries
with no NaN/Infinity for every pixel-array input (malformed included); the
invariant extractor always returns exactly 64 entries, and none is
NaN/Infinity whenever the input has at least the full 256 pixels — for
shorter (malformed) inputs the invariant path can produce NaN entries. -/
theorem claim_C1_vector_shape (sqrtF : ℚ → ℚ) (pixels : List ℤ) (w : Weights) :
    (extractEnhancedFeatures sqrtF pixels w).length = 102 ∧
      (∀ x ∈ extractEnhancedFeatures sqrtF pixels w, x ≠ none) ∧
      (extractInvariantFeatures pixels).length = 64 ∧
      (256 ≤ pixels.length → ∀ x ∈ extractInvariantFeatures pixels, x ≠ none) := by
  have hlen := normalizePixels_length pixels
  refine ⟨?_, ?_, ?_, ?_⟩
  · simp [extractEnhancedFeatures, List.length_append, applyWeight, List.length_map,
      colorHistogram_length, colorAdjacencyMatrix_length, symmetryFeatures_length,
      structuralFeatures_length, connectedComponentFeatures_length,
      downsampledSpatial_length]
  · intro x hx
    rw [extractEnhancedFeatures] at hx
    simp only [List.mem_append] at hx
    rcases hx with ((((hx | hx) | hx) | hx) | hx) | hx
    · exact applyWeight_some _ _ (colorHistogram_some _ hlen) x hx
    · exact applyWeight_some _ _ (colorAdjacencyMatrix_some _) x hx
    · exact applyWeight_some _ _ (symmetryFeatures_some _) x hx
    · exact applyWeight_some _ _ (structuralFeatures_some sqrtF _) x hx
    · exact applyWeight_some _ _ (connectedComponentFeatures_some _ hlen) x hx
    · exact applyWeight_some _ _ (downsampledSpatial_some _) x hx
  · simp [extractInvariantFeatures, avgOfVariants]
  · intro h256
    have henc : 256 ≤ (pixelsToEncodedValues pixels).length := by
      rw [pixelsToEncodedValues_length]; exact h256
    exact avgOfVariants_some _ (centerDrawing_defined _ henc)

/-- Claim C1, witness: the amended theorem instantiated at the
all-background input (whose length is 256). -/
theorem claim_C1_witness :
    256 ≤ (List.replicate 256 (1 : ℤ)).length ∧
      ((extractEnhancedFeatures id (List.replicate 256 1) ⟨1, 1, 1, 1, 1, 1⟩).length = 102 ∧
        (∀ x ∈ extractEnhancedFeatures id (List.replicate 256 1) ⟨1, 1, 1, 1, 1, 1⟩, x ≠ none) ∧
        (extractInvariantFeatures (List.replicate 256 (1 : ℤ))).length = 64 ∧
        (256 ≤ (List.replicate 256 (1 : ℤ)).length →
          ∀ x ∈ extractInvariantFeatures (List.replicate 256 (1 : ℤ)), x ≠ none)) :=
  ⟨by decide, claim_C1_vector_shape id (List.replicate 256 1) ⟨1, 1, 1, 1, 1, 1⟩⟩

end PixelSpace.Claims

namespace PixelSpace.Claims

open PixelSpace PixelSpace.Palette PixelSpace.Gallery

/-- Claim C9: the feature extractors and the incremental projector are
pure functions of their inputs — in this development every randomized
source routine takes the ambient random stream as an explicit argument,
and `computePreviewPosition` takes none — and the projector's anti-overlap
offset is derived from the 32-bit hash of the input pixels alone:
the projector factors as its similarity-weighted base position plus
`hashOffset`. -/
theorem claim_C9_deterministic_offset (sqrtF : ℚ → ℚ)
    (positions : List (ℕ × (ℚ × ℚ))) (drawings : List (ℕ × List ℤ))
    (cached : List (ℕ × List JsNum)) (wc ws wsh : ℚ) (pixels : List ℤ) :
    computePreviewPosition sqrtF positions drawings cached wc ws wsh pixels =
      (previewBasePosition sqrtF positions drawings cached wc ws wsh pixels).map
        (fun q => (oadd q.1 (some (hashOffset pixels).1),
          oadd q.2 (some (hashOffset pixels).2))) := by
  rw [computePreviewPosition, previewBasePosition]
  split_ifs <;> simp <;> split_ifs <;> simp

end PixelSpace.Claims

namespace PixelSpace.Claims

open PixelSpace PixelSpace.Gallery

/-- Sum of a mapped list after a single in-range update. -/
theorem sum_map_set {α : Type} (f : α → ℚ) (d : α) :
    ∀ (l : List α) (i : ℕ), i < l.length → ∀ (a : α),
      ((l.set i a).map f).sum = (l.map f).sum - f (l.getD i d) + f a := by
  intro l
  induction l with
  | nil => intro i hi; simp at hi
  | cons x t ih =>
    intro i hi a
    cases i with
    | zero => simp [List.set]; ring
    | succ m =>
      have hm : m < t.length := by simpa using hi
      show (List.map f (x :: t.set m a)).sum = _
      simp only [List.map_cons, List.sum_cons, List.getD_cons_succ]
      rw [ih m hm a]
      ring

/-- Sum of a mapped list after the equal-and-opposite pair update. -/
theorem sum_map_set_pair (f : (ℚ × ℚ) → ℚ) (l : List (ℚ × ℚ)) (i j : ℕ) (a b : ℚ × ℚ)
    (hi : i < l.length) (hj : j < l.length) (hij : i ≠ j) :
    (((l.set i a).set j b).map f).sum =
      (l.map f).sum - f (l.getD i (0, 0)) + f a - f (l.getD j (0, 0)) + f b := by
  rw [sum_map_set f (0, 0) (l.set i a) j (by simpa using hj) b,
    sum_map_set f (0, 0) l i hi a]
  have : (l.set i a).getD j (0, 0) = l.getD j (0, 0) := by
    simp only [List.getD_eq_getElem?_getD]
    rw [List.getElem?_set_ne hij]
  rw [this]

/-- `collidePair` preserves the number of positions and both coordinate
sums: the two displaced points move by equal and opposite vectors. -/
theorem collidePair_preserves (fs : JsFuns) (rng : ℕ → ℚ) (minDistance : ℚ)
    (st : List (ℚ × ℚ) × ℕ) (i j : ℕ) (hi : i < st.1.length) (hj : j < st.1.length) :
    (collidePair fs rng minDistance st i j).1.length = st.1.length ∧
      ((collidePair fs rng minDistance st i j).1.map Prod.fst).sum =
        (st.1.map Prod.fst).sum ∧
      ((collidePair fs rng minDistance st i j).1.map Prod.snd).sum =
        (st.1.map Prod.snd).sum := by
  rw [collidePair]
  dsimp only
  split_ifs with hle hov hco
  · exact ⟨rfl, rfl, rfl⟩
  · have hij : i ≠ j := by omega
    refine ⟨by simp, ?_, ?_⟩ <;>
      rw [sum_map_set_pair _ _ i j _ _ hi hj hij] <;> simp <;> ring
  · have hij : i ≠ j := by omega
    refine ⟨by simp, ?_, ?_⟩ <;>
      rw [sum_map_set_pair _ _ i j _ _ hi hj hij] <;> simp <;> ring
  · exact ⟨rfl, rfl, rfl⟩

/-- Every index in a grid bucket is a valid entry index. -/
theorem gridBucket_lt (cellSize : ℚ) (positions : List (ℚ × ℚ)) (key : ℤ × ℤ) :
    ∀ j ∈ gridBucket cellSize positions key, j < positions.length := by
  intro j hj
  rw [gridBucket, List.mem_filter] at hj
  exact List.mem_range.mp hj.1

/-- One relaxation pass preserves the number of positions and both
coordinate sums. -/
theorem collisionPass_preserves (fs : JsFuns) (rng : ℕ → ℚ) (minDistance : ℚ)
    (st : List (ℚ × ℚ) × ℕ) :
    (collisionPass fs rng minDistance st).1.length = st.1.length ∧
      ((collisionPass fs rng minDistance st).1.map Prod.fst).sum =
        (st.1.map Prod.fst).sum ∧
      ((collisionPass fs rng minDistance st).1.map Prod.snd).sum =
        (st.1.map Prod.snd).sum := by
  rw [collisionPass]
  set n := st.1.length with hn
  set P : List (ℚ × ℚ) × ℕ → Prop := fun s =>
    s.1.length = n ∧ (s.1.map Prod.fst).sum = (st.1.map Prod.fst).sum ∧
      (s.1.map Prod.snd).sum = (st.1.map Prod.snd).sum with hP
  suffices h : P ((List.range st.1.length).foldl
      (fun st1 i =>
        let cell := cellOf minDistance (st1.1.getD i (0, 0))
        ([-1, 0, 1] : List ℤ).foldl
          (fun st2 dx =>
            ([-1, 0, 1] : List ℤ).foldl
              (fun st3 dy =>
                (gridBucket minDistance st.1 (cell.1 + dx, cell.2 + dy)).foldl
                  (fun st4 j => collidePair fs rng minDistance st4 i j) st3)
              st2)
          st1)
      st) from h
  apply List.foldlRecOn
  · exact ⟨rfl, rfl, rfl⟩
  · intro b hb i hi
    apply List.foldlRecOn
    · exact hb
    · intro b2 hb2 dx _
      apply List.foldlRecOn
      · exact hb2
      · intro b3 hb3 dy _
        apply List.foldlRecOn
        · exact hb3
        · intro b4 hb4 j hjmem
          have hjlt : j < b4.1.length := by
            rw [hb4.1, hn]
            exact gridBucket_lt _ _ _ j hjmem
          have hilt : i < b4.1.length := by
            rw [hb4.1, hn]
            exact List.mem_range.mp hi
          obtain ⟨hl, hf, hs⟩ := collidePair_preserves fs rng minDistance b4 i j hilt hjlt
          exact ⟨hl.trans hb4.1, hf.trans hb4.2.1, hs.trans hb4.2.2⟩

/-- Claim C10: every pairwise push of the collision relaxation displaces
the two points by equal and opposite vectors, so each pass — and hence the
whole of `resolveCollisions` — preserves the number of positions and both
coordinate sums, i.e. the centroid of the position set. -/
theorem claim_C10_centroid (fs : JsFuns) (rng : ℕ → ℚ) (positions : List (ℚ × ℚ))
    (minDistance : ℚ) (iterations : ℕ) (c0 : ℕ) :
    (resolveCollisions fs rng positions minDistance iterations c0).1.length =
        positions.length ∧
      ((resolveCollisions fs rng positions minDistance iterations c0).1.map
        Prod.fst).sum = (positions.map Prod.fst).sum ∧
      ((resolveCollisions fs rng positions minDistance iterations c0).1.map
        Prod.snd).sum = (positions.map Prod.snd).sum := by
  rw [resolveCollisions]
  suffices h : ∀ (st : List (ℚ × ℚ) × ℕ),
      st.1.length = positions.length ∧
        (st.1.map Prod.fst).sum = (positions.map Prod.fst).sum ∧
        (st.1.map Prod.snd).sum = (positions.map Prod.snd).sum →
      ((List.range iterations).foldl (fun s _ => collisionPass fs rng minDistance s)
        st).1.length = positions.length ∧
        (((List.range iterations).foldl (fun s _ => collisionPass fs rng minDistance s)
          st).1.map Prod.fst).sum = (positions.map Prod.fst).sum ∧
        (((List.range iterations).foldl (fun s _ => collisionPass fs rng minDistance s)
          st).1.map Prod.snd).sum = (positions.map Prod.snd).sum by
    exact h (positions, c0) ⟨rfl, rfl, rfl⟩
  intro st hst
  induction iterations generalizing st with
  | zero => simpa using hst
  | succ m ih =>
    rw [List.range_succ, List.foldl_append, List.foldl_cons, List.foldl_nil]
    obtain ⟨hl, hf, hs⟩ :=
      collisionPass_preserves fs rng minDistance
        ((List.range m).foldl (fun s _ => collisionPass fs rng minDistance s) st)
    obtain ⟨hl2, hf2, hs2⟩ := ih st hst
    exact ⟨hl.trans hl2, hf.trans hf2, hs.trans hs2⟩

end PixelSpace.Claims

namespace PixelSpace.Claims

open PixelSpace PixelSpace.Worker

/-- A fold whose step appends one element and posts nothing grows the list
by the fold length and leaves the message trace unchanged. -/
theorem foldl_append_one {α β : Type} (step : (List α × World) → β → (List α × World))
    (hstep : ∀ st b, ((step st b).1.length = st.1.length + 1) ∧ (step st b).2.2 = st.2.2) :
    ∀ (l : List β) (st : List α × World),
      ((l.foldl step st).1.length = st.1.length + l.length) ∧
        (l.foldl step st).2.2 = st.2.2 := by
  intro l
  induction l with
  | nil => intro st; simp
  | cons b t ih =>
    intro st
    rw [List.foldl_cons]
    obtain ⟨h1, h2⟩ := ih (step st b)
    obtain ⟨h3, h4⟩ := hstep st b
    exact ⟨by rw [List.length_cons]; omega, h2.trans h4⟩

/-- `initializeEmbeddings` of the t-SNE worker: `n` points, no messages. -/
theorem tsne_init_spec (rng : ℕ → ℚ) (n : ℕ) (w : World) :
    (Tsne.initializeEmbeddings rng n w).1.length = n ∧
      (Tsne.initializeEmbeddings rng n w).2.2 = w.2 := by
  have := foldl_append_one
    (fun (acc : List Pt × World) (_ : ℕ) =>
      let r1 := randomDraw rng acc.2
      let r2 := randomDraw rng r1.2
      (acc.1 ++ [((r1.1 - 1/2) * (1/100), (r2.1 - 1/2) * (1/100))], r2.2))
    (fun st b => by simp [randomDraw]) (List.range n) ([], w)
  rw [Tsne.initializeEmbeddings]
  simpa using this

/-- `powerIteration` posts no messages. -/
theorem powerIteration_msgs (fs : JsFuns) (rng : ℕ → ℚ) (m : List (List ℚ)) (w : World) :
    (Tsne.powerIteration fs rng m w).2.2 = w.2 := by
  rw [Tsne.powerIteration]
  have hinit := foldl_append_one
    (fun (acc : List ℚ × World) (_ : ℕ) =>
      let r := randomDraw rng acc.2
      (acc.1 ++ [r.1 - 1/2], r.2))
    (fun st b => by simp [randomDraw]) (List.range m.length) ([], w)
  simpa using hinit.2

/-- `applyPCA` posts no messages. -/
theorem applyPCA_msgs (fs : JsFuns) (rng : ℕ → ℚ) (data : List (List ℚ))
    (targetDims : ℕ) (w : World) : (Tsne.applyPCA fs rng data targetDims w).2.2 = w.2 := by
  rw [Tsne.applyPCA]
  split_ifs with h1 h2
  · rfl
  · rfl
  · dsimp only
    suffices h : ∀ (l : List ℕ) (acc : (List (List ℚ) × List (List ℚ)) × World),
        ((l.foldl (fun acc _ =>
          let cov := acc.1.1
          let pw := Tsne.powerIteration fs rng cov acc.2
          let eigenvector := pw.1
          let eigenvalue := Tsne.computeEigenvalue cov eigenvector
          ((Tsne.deflateMatrix cov eigenvector eigenvalue, acc.1.2 ++ [eigenvector]),
            pw.2)) acc).2.2 = acc.2.2) by
      rw [h]
    intro l
    induction l with
    | nil => intro acc; rfl
    | cons x t ih =>
      intro acc
      rw [List.foldl_cons]
      rw [ih]
      simp [powerIteration_msgs]

end PixelSpace.Claims

namespace PixelSpace.Claims

open PixelSpace PixelSpace.Worker

/-- A fold preserves any invariant its step preserves. -/
theorem foldl_preserve {σ β : Type} (step : σ → β → σ) (Inv : σ → Prop)
    (hstep : ∀ st b, Inv st → Inv (step st b)) :
    ∀ (l : List β) (st : σ), Inv st → Inv (l.foldl step st) := by
  intro l
  induction l with
  | nil => intro st h; exact h
  | cons b t ih => intro st h; exact ih (step st b) (hstep st b h)

/-- `computeGradients` yields one gradient per point. -/
theorem computeGradients_length (P Q : List (List ℚ)) (sumQ : ℚ) (Y : List Pt)
    (ex : ℚ) : (Tsne.computeGradients P Q sumQ Y ex).length = Y.length := by
  simp [Tsne.computeGradients]

/-- `tsneStep` preserves the embedding and velocity lengths and posts no
`done` message. -/
theorem tsneStep_spec (P : List (List ℚ)) (lr : ℚ) (iters : ℕ)
    (st : (List Pt × List Pt) × World) (iter : ℕ) (n : ℕ)
    (hY : st.1.1.length = n) (hv : st.1.2.length = n) :
    (Tsne.tsneStep P lr iters st iter).1.1.length = n ∧
      (Tsne.tsneStep P lr iters st iter).1.2.length = n ∧
      ((Tsne.tsneStep P lr iters st iter).2.2.filter isDone =
        st.2.2.filter isDone) := by
  rw [Tsne.tsneStep]
  dsimp only
  refine ⟨?_, ?_, ?_⟩
  · simp [computeGradients_length, hY, hv]
  · simp [computeGradients_length, hY, hv]
  · split_ifs <;> simp [post, isDone]

/-- `runTSNE` returns one 2-D point per input vector and posts no `done`
message. -/
theorem runTSNE_spec (fs : JsFuns) (rng : ℕ → ℚ) (data : List (List ℚ))
    (config : Tsne.TsneConfig) (w : World) :
    (Tsne.runTSNE fs rng data config w).1.length = data.length ∧
      ((Tsne.runTSNE fs rng data config w).2.2.filter isDone =
        w.2.filter isDone) := by
  rw [Tsne.runTSNE]
  split_ifs with h1 h2
  · simp [h1]
  · simp [h2]
  · dsimp only
    have hpca := applyPCA_msgs fs rng data
      (min 16 (min data.headI.length (data.length - 1))) w
    obtain ⟨hil, hiw⟩ := tsne_init_spec rng data.length
      (Tsne.applyPCA fs rng data (min 16 (min data.headI.length (data.length - 1))) w).2
    have hfold := foldl_preserve
      (Tsne.tsneStep
        (Tsne.symmetrize (Tsne.computeProbabilities fs
          (Tsne.computeDistances
            (Tsne.applyPCA fs rng data
              (min 16 (min data.headI.length (data.length - 1))) w).1)
          (min config.perplexity (((data.length - 1) / 3 : ℕ) : ℚ))))
        config.learningRate config.iterations)
      (fun st => st.1.1.length = data.length ∧ st.1.2.length = data.length ∧
        st.2.2.filter isDone = w.2.filter isDone)
      (fun st iter hst => by
        obtain ⟨hst1, hst2, hst3⟩ := hst
        obtain ⟨g1, g2, g3⟩ := tsneStep_spec _ _ _ st iter data.length hst1 hst2
        exact ⟨g1, g2, g3.trans hst3⟩)
      (List.range config.iterations)
      ((_, List.replicate data.length (0, 0)),
        (Tsne.initializeEmbeddings rng data.length
          (Tsne.applyPCA fs rng data
            (min 16 (min data.headI.length (data.length - 1))) w).2).2)
      ⟨hil, by simp, by rw [hiw, hpca]⟩
    exact ⟨hfold.1, hfold.2.2⟩

end PixelSpace.Claims

namespace PixelSpace.Claims

open PixelSpace PixelSpace.Worker

/-- UMAP `initializeEmbeddings`: `n` points, no messages. -/
theorem umap_init_spec (rng : ℕ → ℚ) (n : ℕ) (w : World) :
    (Umap.initializeEmbeddings rng n w).1.length = n ∧
      (Umap.initializeEmbeddings rng n w).2.2 = w.2 := by
  have := foldl_append_one
    (fun (acc : List Pt × World) (_ : ℕ) =>
      let r1 := randomDraw rng acc.2
      let r2 := randomDraw rng r1.2
      (acc.1 ++ [((r1.1 - 1/2) * 10, (r2.1 - 1/2) * 10)], r2.2))
    (fun st b => by simp [randomDraw]) (List.range n) ([], w)
  rw [Umap.initializeEmbeddings]
  simpa using this

/-- `createRandomProjection` posts no messages. -/
theorem createRandomProjection_msgs (fs : JsFuns) (rng : ℕ → ℚ)
    (fromDim toDim : ℕ) (w : World) :
    (Umap.createRandomProjection fs rng fromDim toDim w).2.2 = w.2 := by
  rw [Umap.createRandomProjection]
  have := foldl_append_one
    (fun (acc : List (List ℚ) × World) (_ : ℕ) =>
      let rowAcc := (List.range fromDim).foldl
        (fun (racc : List ℚ × World) _ =>
          let r := randomDraw rng racc.2
          let entry := if r.1 < 1/6 then (1 / fs.sqrt toDim) * fs.sqrt 3
            else if r.1 < 2/6 then -((1 / fs.sqrt toDim) * fs.sqrt 3) else 0
          (racc.1 ++ [entry], r.2))
        ([], acc.2)
      (acc.1 ++ [rowAcc.1], rowAcc.2))
    (fun st b => by
      refine ⟨by simp, ?_⟩
      have := foldl_append_one
        (fun (racc : List ℚ × World) (_ : ℕ) =>
          let r := randomDraw rng racc.2
          let entry := if r.1 < 1/6 then (1 / fs.sqrt toDim) * fs.sqrt 3
            else if r.1 < 2/6 then -((1 / fs.sqrt toDim) * fs.sqrt 3) else 0
          (racc.1 ++ [entry], r.2))
        (fun st b => by simp [randomDraw]) (List.range fromDim) ([], st.2)
      simpa using this.2)
    (List.range toDim) ([], w)
  simpa using this.2

/-- `negativeSample` preserves the embedding length and messages. -/
theorem negativeSample_spec (fs : JsFuns) (rng : ℕ → ℚ) (a b alpha : ℚ)
    (n i j : ℕ) (st : List Pt × World) :
    (Umap.negativeSample fs rng a b alpha n i j st).1.length = st.1.length ∧
      (Umap.negativeSample fs rng a b alpha n i j st).2.2 = st.2.2 := by
  rw [Umap.negativeSample]
  dsimp only
  split_ifs <;> simp [randomDraw]

/-- The five negative samples of `edgeStep` keep the embedding length. -/
theorem negFold_len (fs : JsFuns) (rng : ℕ → ℚ) (a b alpha : ℚ) (n i j : ℕ) :
    ∀ (l : List ℕ) (st : List Pt × World),
      (l.foldl (fun st2 (_ : ℕ) =>
        Umap.negativeSample fs rng a b alpha n i j st2) st).1.length =
        st.1.length := by
  intro l
  induction l with
  | nil => intro st; rfl
  | cons c t ih =>
    intro st
    rw [List.foldl_cons, ih]
    exact (negativeSample_spec fs rng a b alpha n i j st).1

/-- The five negative samples of `edgeStep` post nothing. -/
theorem negFold_msgs (fs : JsFuns) (rng : ℕ → ℚ) (a b alpha : ℚ) (n i j : ℕ) :
    ∀ (l : List ℕ) (st : List Pt × World),
      (l.foldl (fun st2 (_ : ℕ) =>
        Umap.negativeSample fs rng a b alpha n i j st2) st).2.2 = st.2.2 := by
  intro l
  induction l with
  | nil => intro st; rfl
  | cons c t ih =>
    intro st
    rw [List.foldl_cons, ih]
    exact (negativeSample_spec fs rng a b alpha n i j st).2

/-- `edgeStep` preserves the embedding length and messages. -/
theorem edgeStep_spec (fs : JsFuns) (rng : ℕ → ℚ) (a b alpha : ℚ) (n : ℕ)
    (head tail : List ℕ) (st : List Pt × World) (edgeIdx : ℕ) :
    (Umap.edgeStep fs rng a b alpha n head tail st edgeIdx).1.length =
        st.1.length ∧
      (Umap.edgeStep fs rng a b alpha n head tail st edgeIdx).2.2 = st.2.2 := by
  rw [Umap.edgeStep]
  exact ⟨by rw [negFold_len]; simp, by rw [negFold_msgs]⟩

/-- `epochStep` preserves the embedding length, appends exactly its `alpha`
to the trace, and posts no `done` message. -/
theorem epochStep_spec (fs : JsFuns) (rng : ℕ → ℚ) (a b alpha0 : ℚ) (n : ℕ)
    (head tail edgeOrder : List ℕ) (nEpochs : ℕ)
    (st : (List Pt × List ℚ) × World) (epoch : ℕ) :
    (Umap.epochStep fs rng a b alpha0 n head tail edgeOrder nEpochs st epoch).1.1.length =
        st.1.1.length ∧
      (Umap.epochStep fs rng a b alpha0 n head tail edgeOrder nEpochs st epoch).1.2 =
        st.1.2 ++ [alpha0 * (1 - (epoch : ℚ) / (nEpochs : ℚ))] ∧
      ((Umap.epochStep fs rng a b alpha0 n head tail edgeOrder nEpochs st epoch).2.2.filter
          isDone = st.2.2.filter isDone) := by
  rw [Umap.epochStep]
  dsimp only
  have hedges := foldl_preserve
    (Umap.edgeStep fs rng a b (alpha0 * (1 - (epoch : ℚ) / (nEpochs : ℚ))) n head tail)
    (fun st2 => st2.1.length = st.1.1.length ∧ st2.2.2 = st.2.2)
    (fun st2 c h => by
      obtain ⟨g1, g2⟩ := edgeStep_spec fs rng a b
        (alpha0 * (1 - (epoch : ℚ) / (nEpochs : ℚ))) n head tail st2 c
      exact ⟨g1.trans h.1, g2.trans h.2⟩)
    edgeOrder (st.1.1, st.2) ⟨rfl, rfl⟩
  refine ⟨hedges.1, rfl, ?_⟩
  split_ifs <;> simp [post, isDone, hedges.2]

end PixelSpace.Claims

namespace PixelSpace.Claims

open PixelSpace PixelSpace.Worker

/-- The epoch fold of `optimizeLayout` keeps the embedding length. -/
theorem epochFold_len (fs : JsFuns) (rng : ℕ → ℚ) (a b alpha0 : ℚ) (n : ℕ)
    (head tail edgeOrder : List ℕ) (nEpochs : ℕ) :
    ∀ (l : List ℕ) (st : (List Pt × List ℚ) × World),
      (l.foldl (Umap.epochStep fs rng a b alpha0 n head tail edgeOrder nEpochs)
        st).1.1.length = st.1.1.length := by
  intro l
  induction l with
  | nil => intro st; rfl
  | cons c t ih =>
    intro st
    rw [List.foldl_cons, ih]
    exact (epochStep_spec fs rng a b alpha0 n head tail edgeOrder nEpochs st c).1

/-- The epoch fold of `optimizeLayout` records one decayed `alpha` per
epoch. -/
theorem epochFold_alphas (fs : JsFuns) (rng : ℕ → ℚ) (a b alpha0 : ℚ) (n : ℕ)
    (head tail edgeOrder : List ℕ) (nEpochs : ℕ) :
    ∀ (l : List ℕ) (st : (List Pt × List ℚ) × World),
      (l.foldl (Umap.epochStep fs rng a b alpha0 n head tail edgeOrder nEpochs)
        st).1.2 = st.1.2 ++
          l.map (fun (e : ℕ) => alpha0 * (1 - (e : ℚ) / (nEpochs : ℚ))) := by
  intro l
  induction l with
  | nil => intro st; simp
  | cons c t ih =>
    intro st
    rw [List.foldl_cons, ih,
      (epochStep_spec fs rng a b alpha0 n head tail edgeOrder nEpochs st c).2.1]
    simp

/-- The epoch fold of `optimizeLayout` posts no `done` message. -/
theorem epochFold_msgs (fs : JsFuns) (rng : ℕ → ℚ) (a b alpha0 : ℚ) (n : ℕ)
    (head tail edgeOrder : List ℕ) (nEpochs : ℕ) :
    ∀ (l : List ℕ) (st : (List Pt × List ℚ) × World),
      (l.foldl (Umap.epochStep fs rng a b alpha0 n head tail edgeOrder nEpochs)
        st).2.2.filter isDone = st.2.2.filter isDone := by
  intro l
  induction l with
  | nil => intro st; rfl
  | cons c t ih =>
    intro st
    rw [List.foldl_cons, ih]
    exact (epochStep_spec fs rng a b alpha0 n head tail edgeOrder nEpochs st c).2.2

/-- `optimizeLayout` keeps the embedding length. -/
theorem optimizeLayout_len (fs : JsFuns) (rng : ℕ → ℚ) (embeddings : List Pt)
    (head tail : List ℕ) (weights : List ℚ) (nEpochs : ℕ) (minDist : ℚ)
    (w : World) :
    (Umap.optimizeLayout fs rng embeddings head tail weights nEpochs minDist
      w).1.1.length = embeddings.length := by
  rw [Umap.optimizeLayout, epochFold_len]

/-- `optimizeLayout` reports the full decayed `alpha` schedule
`alpha0·(1 − e/nEpochs)` for `e < nEpochs`, with `alpha0 = 1`. -/
theorem optimizeLayout_alphas (fs : JsFuns) (rng : ℕ → ℚ) (embeddings : List Pt)
    (head tail : List ℕ) (weights : List ℚ) (nEpochs : ℕ) (minDist : ℚ)
    (w : World) :
    (Umap.optimizeLayout fs rng embeddings head tail weights nEpochs minDist
      w).1.2 =
      (List.range nEpochs).map
        (fun (e : ℕ) => (1 : ℚ) * (1 - (e : ℚ) / (nEpochs : ℚ))) := by
  rw [Umap.optimizeLayout, epochFold_alphas]
  simp

/-- `optimizeLayout` posts no `done` message. -/
theorem optimizeLayout_msgs (fs : JsFuns) (rng : ℕ → ℚ) (embeddings : List Pt)
    (head tail : List ℕ) (weights : List ℚ) (nEpochs : ℕ) (minDist : ℚ)
    (w : World) :
    (Umap.optimizeLayout fs rng embeddings head tail weights nEpochs minDist
      w).2.2.filter isDone = w.2.filter isDone := by
  rw [Umap.optimizeLayout, epochFold_msgs]

/-- UMAP `initializeEmbeddings` yields `n` points. -/
theorem umap_init_len (rng : ℕ → ℚ) (n : ℕ) (w : World) :
    (Umap.initializeEmbeddings rng n w).1.length = n :=
  (umap_init_spec rng n w).1

/-- UMAP `initializeEmbeddings` posts nothing. -/
theorem umap_init_msgs (rng : ℕ → ℚ) (n : ℕ) (w : World) :
    (Umap.initializeEmbeddings rng n w).2.2 = w.2 :=
  (umap_init_spec rng n w).2

/-- `runUMAP` returns one 2-D point per input vector and posts no `done`
message. -/
theorem runUMAP_spec (fs : JsFuns) (rng : ℕ → ℚ) (data : List (List ℚ))
    (config : Umap.UmapConfig) (w : World) :
    (Umap.runUMAP fs rng data config w).1.1.length = data.length ∧
      ((Umap.runUMAP fs rng data config w).2.2.filter isDone =
        w.2.filter isDone) := by
  rw [Umap.runUMAP]
  split_ifs with h1 h2 h3 h4
  · simp [h1, post, isDone]
  · simp [h2, post, isDone]
  · simp [h3, post, isDone]
  · dsimp only
    have := foldl_append_one
      (fun (acc : List Pt × World) (_ : List ℚ) =>
        let r1 := randomDraw rng acc.2
        let r2 := randomDraw rng r1.2
        (acc.1 ++ [((r1.1 - 1/2) * 20, (r2.1 - 1/2) * 20)], r2.2))
      (fun st b => by simp [randomDraw]) data
      ([], post Msg.log (post Msg.log (post Msg.log w)))
    refine ⟨by simpa using this.1, ?_⟩
    rw [this.2]
    simp [post, isDone]
  · dsimp only
    refine ⟨?_, ?_⟩
    · rw [optimizeLayout_len, umap_init_len]
    · simp only [post, List.filter_append]
      rw [optimizeLayout_msgs]
      simp only [post, umap_init_msgs]
      split_ifs
      · rw [List.filter_append, createRandomProjection_msgs]
        simp [post, isDone]
      · simp [post, isDone]

end PixelSpace.Claims

namespace PixelSpace.Claims

open PixelSpace PixelSpace.Worker

/-- C2: for every request, each worker (t-SNE and UMAP) posts exactly one
`done` message, it is the final message of the trace, and its embeddings
list has exactly one entry per input vector.  (The modelled handlers are
total, so the `try/catch` fallback path of the source is unreachable in
the model.) -/
theorem claim_C2_worker_messages (fs : JsFuns) (rng : ℕ → ℚ)
    (vectors : List (List ℚ)) (tcfg : Tsne.TsneConfig) (ucfg : Umap.UmapConfig)
    (c0 : ℕ) :
    (((Tsne.onmessage fs rng vectors tcfg (c0, [])).2.filter isDone).length = 1 ∧
      (∃ embs : List Pt,
        (Tsne.onmessage fs rng vectors tcfg (c0, [])).2.getLast? =
          some (Msg.done embs) ∧ embs.length = vectors.length)) ∧
    (((Umap.onmessage fs rng vectors ucfg (c0, [])).2.filter isDone).length = 1 ∧
      (∃ embs : List Pt,
        (Umap.onmessage fs rng vectors ucfg (c0, [])).2.getLast? =
          some (Msg.done embs) ∧ embs.length = vectors.length)) := by
  constructor
  · rw [Tsne.onmessage]
    split_ifs with h1 h2
    · exact ⟨by simp [post, isDone], [], by simp [post], h1.symm⟩
    · exact ⟨by simp [post, isDone], [(0, 0)], by simp [post], h2.symm⟩
    · dsimp only
      obtain ⟨hlen, hmsg⟩ := runTSNE_spec fs rng vectors tcfg (c0, [])
      refine ⟨?_, ⟨(Tsne.runTSNE fs rng vectors tcfg (c0, [])).1, ?_, hlen⟩⟩
      · simp only [post, List.filter_append, hmsg]
        simp [isDone]
      · simp [post]
  · rw [Umap.onmessage]
    dsimp only
    split_ifs with h1 h2
    · exact ⟨by simp [post, isDone], [], by simp [post], h1.symm⟩
    · exact ⟨by simp [post, isDone], [(0, 0)], by simp [post], h2.symm⟩
    · obtain ⟨hlen, hmsg⟩ := runUMAP_spec fs rng vectors ucfg
        (post Msg.log (c0, []))
      have hmsg' : List.filter isDone
          (Umap.runUMAP fs rng vectors ucfg (c0, [Msg.log])).2.2 = [] := by
        simpa [post, isDone] using hmsg
      refine ⟨?_,
        ⟨(Umap.runUMAP fs rng vectors ucfg (post Msg.log (c0, []))).1.1, ?_, hlen⟩⟩
      · simp only [post, List.filter_append, hmsg']
        simp only [List.filter_eq_nil_iff] at hmsg'
        simp [isDone]
        intro a ha
        simpa [isDone] using hmsg' a ha
      · simp [post]

end PixelSpace.Claims

namespace PixelSpace.Claims

open PixelSpace PixelSpace.Worker

unseal Rat.mul Rat.inv Rat.add Rat.sub in
/-- C3 counterexample: on the t-SNE path there is no `N = 2` special case:
with two one-dimensional inputs, the deterministic midpoint RNG and zero
gradient iterations, `runTSNE` returns the two initialization points
`[(0, 0), (0, 0)]`, not the fixed pair `[(-5, 0), (5, 0)]`. -/
theorem claim_C3_counterexample :
    ([[0], [1]] : List (List ℚ)).length = 2 ∧
      (Tsne.runTSNE idFuns (fun _ => 1/2) [[0], [1]]
        ⟨30, 0, 200⟩ (0, [])).1 ≠ [(-5, 0), (5, 0)] := by
  refine ⟨rfl, ?_⟩
  decide

/-- C3 (amended): the fixed symmetric pair `[(-5, 0), (5, 0)]` is the
`N = 2` special case of the UMAP optimizer `runUMAP`, not of `runTSNE`. -/
theorem claim_C3_amended (fs : JsFuns) (rng : ℕ → ℚ) (data : List (List ℚ))
    (config : Umap.UmapConfig) (w : World) (h : data.length = 2) :
    (Umap.runUMAP fs rng data config w).1.1 = [(-5, 0), (5, 0)] := by
  rw [Umap.runUMAP]
  simp [h]

/-- C3 amended-theorem witness at a concrete two-vector input. -/
theorem claim_C3_witness :
    ([[0], [1]] : List (List ℚ)).length = 2 ∧
      (Umap.runUMAP idFuns (fun _ => 1/2) [[0], [1]]
        ⟨15, 1/10, 50⟩ (0, [])).1.1 = [(-5, 0), (5, 0)] :=
  ⟨rfl, claim_C3_amended idFuns (fun _ => 1/2) [[0], [1]] ⟨15, 1/10, 50⟩ (0, []) rfl⟩

end PixelSpace.Claims

namespace PixelSpace.Claims

open PixelSpace PixelSpace.Worker

/-- On the non-trivial UMAP path the recorded `alpha` schedule is
`1·(1 − e/epochs)` for `e < epochs` with `epochs = min nEpochs 50`. -/
theorem runUMAP_alphas (fs : JsFuns) (rng : ℕ → ℚ) (data : List (List ℚ))
    (config : Umap.UmapConfig) (w : World) (h : 5 < data.length) :
    (Umap.runUMAP fs rng data config w).1.2 =
      (List.range (min config.nEpochs 50)).map
        (fun (e : ℕ) =>
          (1 : ℚ) * (1 - (e : ℚ) / ((min config.nEpochs 50 : ℕ) : ℚ))) := by
  rw [Umap.runUMAP]
  split_ifs with h1 h2 h3 h4
  · omega
  · omega
  · omega
  · omega
  · dsimp only
    rw [optimizeLayout_alphas]

/-- C6 (amended): on the UMAP path with more than 5 points the epoch loop
executes `min nEpochs 50` epochs (the source caps the configured `nEpochs`
at 50), applying `alpha = 1 − epoch/min(nEpochs,50)` at epoch indices
`0 ≤ epoch < min(nEpochs,50)`; the per-epoch `alpha` observations of
`optimizeLayout` record exactly this schedule. -/
theorem claim_C6_alpha_schedule (fs : JsFuns) (rng : ℕ → ℚ)
    (data : List (List ℚ)) (config : Umap.UmapConfig) (w : World)
    (h : 5 < data.length) :
    (Umap.runUMAP fs rng data config w).1.2 =
      (List.range (min config.nEpochs 50)).map
        (fun (e : ℕ) => 1 - (e : ℚ) / ((min config.nEpochs 50 : ℕ) : ℚ)) := by
  rw [runUMAP_alphas fs rng data config w h]
  simp

/-- C6 amended-theorem witness at a concrete six-vector input. -/
theorem claim_C6_witness :
    5 < ([[0], [1], [2], [3], [4], [5]] : List (List ℚ)).length ∧
      (Umap.runUMAP idFuns (fun _ => 1/2) [[0], [1], [2], [3], [4], [5]]
        ⟨15, 1/10, 1⟩ (0, [])).1.2 =
        (List.range (min 1 50)).map
          (fun (e : ℕ) => 1 - (e : ℚ) / ((min 1 50 : ℕ) : ℚ)) :=
  ⟨by decide,
    claim_C6_alpha_schedule idFuns (fun _ => 1/2) [[0], [1], [2], [3], [4], [5]]
      ⟨15, 1/10, 1⟩ (0, []) (by decide)⟩

/-- C6 counterexample to the unamended claim: with `nEpochs = 51` and six
points the loop executes only 50 epochs, not one per configured epoch. -/
theorem claim_C6_counterexample :
    5 < ([[0], [1], [2], [3], [4], [5]] : List (List ℚ)).length ∧
      (Umap.runUMAP idFuns (fun _ => 1/2) [[0], [1], [2], [3], [4], [5]]
        ⟨15, 1/10, 51⟩ (0, [])).1.2.length ≠ 51 := by
  refine ⟨by decide, ?_⟩
  rw [runUMAP_alphas idFuns (fun _ => 1/2) _ ⟨15, 1/10, 51⟩ (0, []) (by decide)]
  simp

end PixelSpace.Claims

namespace PixelSpace.Claims

open PixelSpace PixelSpace.Palette PixelSpace.Invariant

unseal Rat.mul Rat.inv Rat.add Rat.sub in
/-- The encoded form of the two-black-pixel grid. -/
theorem c4_enc_base : pixelsToEncodedValues Invariant.twoPixelGrid =
    ((List.replicate 256 (255 : ℚ)).set 0 0).set 51 0 := rfl

/-- Rotating the two-black-pixel grid moves the black cells to flat
indices 15 and 60. -/
theorem pixRot_twoPixel : pixRotate90 Invariant.twoPixelGrid =
    (List.range 256).map fun k => if k = 15 ∨ k = 60 then (0 : ℤ) else 1 := by
  rw [pixRotate90, Invariant.twoPixelGrid]
  refine List.map_congr_left ?_
  intro k hk
  rw [List.mem_range] at hk
  dsimp only
  have h0 : (0 : ℤ) ≤ (15 - ((k % 16 : ℕ) : ℤ)) * 16 + ((k / 16 : ℕ) : ℤ) := by omega
  have h1 : (15 - ((k % 16 : ℕ) : ℤ)) * 16 + ((k / 16 : ℕ) : ℤ) < (256 : ℕ) := by
    push_cast; omega
  rw [zget_range_map_int (fun k => if k = 0 ∨ k = 51 then (0 : ℤ) else 1) 256 _ h0 h1,
    Option.getD_some]
  by_cases h : k = 15 ∨ k = 60
  · rcases h with h | h <;> subst h <;> norm_num <;> rfl
  · rw [if_neg (by push_neg at h ⊢; constructor <;> omega), if_neg h]

/-- Flipping the two-black-pixel grid also moves the black cells to flat
indices 15 and 60 (the example is symmetric across the main diagonal). -/
theorem pixFlip_twoPixel : pixFlipH Invariant.twoPixelGrid =
    (List.range 256).map fun k => if k = 15 ∨ k = 60 then (0 : ℤ) else 1 := by
  rw [pixFlipH, Invariant.twoPixelGrid]
  refine List.map_congr_left ?_
  intro k hk
  rw [List.mem_range] at hk
  dsimp only
  have h0 : (0 : ℤ) ≤ ((k / 16 : ℕ) : ℤ) * 16 + (15 - ((k % 16 : ℕ) : ℤ)) := by omega
  have h1 : ((k / 16 : ℕ) : ℤ) * 16 + (15 - ((k % 16 : ℕ) : ℤ)) < (256 : ℕ) := by
    push_cast; omega
  rw [zget_range_map_int (fun k => if k = 0 ∨ k = 51 then (0 : ℤ) else 1) 256 _ h0 h1,
    Option.getD_some]
  by_cases h : k = 15 ∨ k = 60
  · rcases h with h | h <;> subst h <;> norm_num <;> rfl
  · rw [if_neg (by push_neg at h ⊢; constructor <;> omega), if_neg h]

unseal Rat.mul Rat.inv Rat.add Rat.sub in
/-- The encoded form of the rotated two-black-pixel grid. -/
theorem c4_enc_rot :
    pixelsToEncodedValues (Invariant.pixRotate90 Invariant.twoPixelGrid) =
    ((List.replicate 256 (255 : ℚ)).set 15 0).set 60 0 := by
  rw [pixRot_twoPixel]
  rfl

unseal Rat.mul Rat.inv Rat.add Rat.sub in
/-- The encoded form of the flipped two-black-pixel grid (it coincides
with the rotated one for this symmetric example). -/
theorem c4_enc_flip :
    pixelsToEncodedValues (Invariant.pixFlipH Invariant.twoPixelGrid) =
    ((List.replicate 256 (255 : ℚ)).set 15 0).set 60 0 := by
  rw [pixFlip_twoPixel]
  rfl

/-- A sum over the 16×16 scan of an indicator supported on two distinct
in-range indices picks out exactly those two summands. -/
theorem ind_sum (i j : ℕ) (f : ℕ → ℕ) (hi : i < 256) (hj : j < 256) (hij : i ≠ j) :
    ∑ k ∈ Finset.range 256, (if k = i ∨ k = j then f k else 0) = f i + f j := by
  have hsplit : ∀ k, (if k = i ∨ k = j then f k else 0) =
      (if k = i then f k else 0) + (if k = j then f k else 0) := by
    intro k
    by_cases h1 : k = i
    · rw [if_pos (Or.inl h1), if_pos h1, if_neg (fun h2 => hij (h1.symm.trans h2)),
        Nat.add_zero]
    · by_cases h2 : k = j
      · rw [if_pos (Or.inr h2), if_neg h1, if_pos h2, Nat.zero_add]
      · rw [if_neg (fun hc => hc.elim h1 h2), if_neg h1, if_neg h2, Nat.add_zero]
  rw [Finset.sum_congr rfl (fun k _ => hsplit k), Finset.sum_add_distrib,
    Finset.sum_ite_eq' (Finset.range 256) i f, Finset.sum_ite_eq' (Finset.range 256) j f]
  simp [Finset.mem_range, hi, hj]

/-- Reading the two-black-cell encoded literal at an in-range index: 0 at
the two black cells, 255 (White's encoding) elsewhere. -/
theorem lit_get (i j k : ℕ) (hi : i < 256) (hj : j < 256) (hk : k < 256) :
    (((List.replicate 256 (255 : ℚ)).set i 0).set j 0).get? k =
      some (if k = i ∨ k = j then 0 else 255) := by
  have hrep : (List.replicate 256 (255 : ℚ)).get? k = some 255 :=
    (zget_natCast _ k).symm.trans (zget_replicate 255 256 (k : ℤ) (by positivity)
      (by exact_mod_cast hk))
  have hk2 : k < ((List.replicate 256 (255 : ℚ)).set i 0).length := by
    rw [List.length_set, List.length_replicate]; exact hk
  have hk1 : k < (List.replicate 256 (255 : ℚ)).length := by
    rw [List.length_replicate]; exact hk
  rw [List.get?_set_of_lt 0 _ hk2, List.get?_set_of_lt 0 _ hk1]
  by_cases h2 : k = j
  · rw [if_pos h2.symm, if_pos (Or.inr h2)]
  · rw [if_neg (fun hc => h2 hc.symm)]
    by_cases h1 : k = i
    · rw [if_pos h1.symm, if_pos (Or.inl h1)]
    · rw [if_neg (fun hc => h1 hc.symm), if_neg (fun hc => hc.elim h1 h2), hrep]

/-- The centre-of-mass weight of a scan cell of the two-black-cell
literal is the indicator of the two black cells. -/
theorem cellWeight_lit (i j k : ℕ) (hi : i < 256) (hj : j < 256) (hk : k < 256) :
    cellWeight (((List.replicate 256 (255 : ℚ)).set i 0).set j 0) (k / 16) (k % 16) =
      if k = i ∨ k = j then 1 else 0 := by
  rw [cellWeight]
  have hidx : ((k / 16 : ℕ) : ℤ) * 16 + ((k % 16 : ℕ) : ℤ) = (k : ℤ) := by push_cast; omega
  rw [hidx, zget_natCast, lit_get i j k hi hj hk]
  by_cases h : k = i ∨ k = j
  · rw [if_pos h, if_pos h, if_pos (by norm_num : some (0 : ℚ) ≠ some 255)]
  · rw [if_neg h, if_neg h, if_neg (by norm_num : ¬ some (255 : ℚ) ≠ some 255)]

/-- Total centre-of-mass weight of the two-black-cell literal. -/
theorem totalWeight_lit (i j : ℕ) (hi : i < 256) (hj : j < 256) (hij : i ≠ j) :
    totalWeight (((List.replicate 256 (255 : ℚ)).set i 0).set j 0) = 2 := by
  rw [totalWeight, listSum_range,
    Finset.sum_congr rfl (fun k hk => cellWeight_lit i j k hi hj (Finset.mem_range.mp hk)),
    ind_sum i j (fun _ => 1) hi hj hij]

/-- The `sumX` accumulator of the two-black-cell literal. -/
theorem sumX_lit (i j : ℕ) (hi : i < 256) (hj : j < 256) (hij : i ≠ j) :
    sumX (((List.replicate 256 (255 : ℚ)).set i 0).set j 0) = i % 16 + j % 16 := by
  rw [sumX, listSum_range]
  have hbody : ∀ k ∈ Finset.range 256, k % 16 *
      cellWeight (((List.replicate 256 (255 : ℚ)).set i 0).set j 0) (k / 16) (k % 16) =
      if k = i ∨ k = j then k % 16 else 0 := by
    intro k hk
    rw [cellWeight_lit i j k hi hj (Finset.mem_range.mp hk)]
    simp only [mul_ite, mul_one, mul_zero]
  rw [Finset.sum_congr rfl hbody, ind_sum i j (fun k => k % 16) hi hj hij]

/-- The `sumY` accumulator of the two-black-cell literal. -/
theorem sumY_lit (i j : ℕ) (hi : i < 256) (hj : j < 256) (hij : i ≠ j) :
    sumY (((List.replicate 256 (255 : ℚ)).set i 0).set j 0) = i / 16 + j / 16 := by
  rw [sumY, listSum_range]
  have hbody : ∀ k ∈ Finset.range 256, k / 16 *
      cellWeight (((List.replicate 256 (255 : ℚ)).set i 0).set j 0) (k / 16) (k % 16) =
      if k = i ∨ k = j then k / 16 else 0 := by
    intro k hk
    rw [cellWeight_lit i j k hi hj (Finset.mem_range.mp hk)]
    simp only [mul_ite, mul_one, mul_zero]
  rw [Finset.sum_congr rfl hbody, ind_sum i j (fun k => k / 16) hi hj hij]

unseal Rat.mul Rat.inv Rat.add Rat.sub in
/-- Centring the encoded two-black-pixel grid: the centre of mass (1.5,
1.5) rounds to a shift of (7, 7). -/
theorem c4_center_base :
    centerDrawing (((List.replicate 256 (255 : ℚ)).set 0 0).set 51 0) =
    ((List.replicate 256 (some (255 : ℚ))).set 119 (some 0)).set 170 (some 0) := by
  have hx : jsRound (16 / 2 -
      ((sumX (((List.replicate 256 (255 : ℚ)).set 0 0).set 51 0) : ℚ) /
        (totalWeight (((List.replicate 256 (255 : ℚ)).set 0 0).set 51 0) : ℚ))) = 7 := by
    rw [sumX_lit 0 51 (by norm_num) (by norm_num) (by norm_num),
      totalWeight_lit 0 51 (by norm_num) (by norm_num) (by norm_num)]
    decide
  have hy : jsRound (16 / 2 -
      ((sumY (((List.replicate 256 (255 : ℚ)).set 0 0).set 51 0) : ℚ) /
        (totalWeight (((List.replicate 256 (255 : ℚ)).set 0 0).set 51 0) : ℚ))) = 7 := by
    rw [sumY_lit 0 51 (by norm_num) (by norm_num) (by norm_num),
      totalWeight_lit 0 51 (by norm_num) (by norm_num) (by norm_num)]
    decide
  have hne : totalWeight (((List.replicate 256 (255 : ℚ)).set 0 0).set 51 0) ≠ 0 := by
    rw [totalWeight_lit 0 51 (by norm_num) (by norm_num) (by norm_num)]; omega
  rw [centerDrawing, if_neg hne]
  dsimp only
  rw [hx, hy]
  rfl

unseal Rat.mul Rat.inv Rat.add Rat.sub in
/-- Centring the rotated encoded grid: the centre of mass (13.5, 1.5)
rounds to a shift of (−5, 7) — the rounding of `8 − 13.5` is what breaks
the commutation with rotation. -/
theorem c4_center_rot :
    centerDrawing (((List.replicate 256 (255 : ℚ)).set 15 0).set 60 0) =
    ((List.replicate 256 (some (255 : ℚ))).set 122 (some 0)).set 167 (some 0) := by
  have hx : jsRound (16 / 2 -
      ((sumX (((List.replicate 256 (255 : ℚ)).set 15 0).set 60 0) : ℚ) /
        (totalWeight (((List.replicate 256 (255 : ℚ)).set 15 0).set 60 0) : ℚ))) = -5 := by
    rw [sumX_lit 15 60 (by norm_num) (by norm_num) (by norm_num),
      totalWeight_lit 15 60 (by norm_num) (by norm_num) (by norm_num)]
    decide
  have hy : jsRound (16 / 2 -
      ((sumY (((List.replicate 256 (255 : ℚ)).set 15 0).set 60 0) : ℚ) /
        (totalWeight (((List.replicate 256 (255 : ℚ)).set 15 0).set 60 0) : ℚ))) = 7 := by
    rw [sumY_lit 15 60 (by norm_num) (by norm_num) (by norm_num),
      totalWeight_lit 15 60 (by norm_num) (by norm_num) (by norm_num)]
    decide
  have hne : totalWeight (((List.replicate 256 (255 : ℚ)).set 15 0).set 60 0) ≠ 0 := by
    rw [totalWeight_lit 15 60 (by norm_num) (by norm_num) (by norm_num)]; omega
  rw [centerDrawing, if_neg hne]
  dsimp only
  rw [hx, hy]
  rfl

unseal Rat.mul Rat.inv Rat.add Rat.sub in
/-- Entry 18 of the averaged variants of the centred original grid. -/
theorem c4_avg_base :
    (avgOfVariants (((List.replicate 256 (some (255 : ℚ))).set 119
      (some 0)).set 170 (some 0))).get? 18 = some ((3825 : ℚ)/16) := rfl

unseal Rat.mul Rat.inv Rat.add Rat.sub in
/-- Entry 18 of the averaged variants of the centred rotated grid. -/
theorem c4_avg_rot :
    (avgOfVariants (((List.replicate 256 (some (255 : ℚ))).set 122
      (some 0)).set 167 (some 0))).get? 18 = some (255 : ℚ) := rfl

/-- Claim C4, counterexample: for the two-black-pixel grid (flat indices 0
and 51) the 64-dimensional invariant feature vector changes under both 90°
rotation and horizontal reflection of the raw grid — the centroid
recentering rounds differently for the transformed content, so the claimed
rotation/reflection invariance fails (the vectors differ at entry 18:
3825/16 against 255).  The evaluation is staged through the explicit
encoded and centred grids established above. -/
theorem claim_C4_counterexample :
    Invariant.extractInvariantFeatures
        (Invariant.pixRotate90 Invariant.twoPixelGrid) ≠
      Invariant.extractInvariantFeatures Invariant.twoPixelGrid ∧
    Invariant.extractInvariantFeatures
        (Invariant.pixFlipH Invariant.twoPixelGrid) ≠
      Invariant.extractInvariantFeatures Invariant.twoPixelGrid := by
  have hbase : (Invariant.extractInvariantFeatures Invariant.twoPixelGrid).get? 18 =
      some ((3825 : ℚ)/16) := by
    simp only [Invariant.extractInvariantFeatures]
    rw [c4_enc_base, c4_center_base]
    exact c4_avg_base
  have hrot : (Invariant.extractInvariantFeatures
      (Invariant.pixRotate90 Invariant.twoPixelGrid)).get? 18 = some (255 : ℚ) := by
    simp only [Invariant.extractInvariantFeatures]
    rw [c4_enc_rot, c4_center_rot]
    exact c4_avg_rot
  have hflip : (Invariant.extractInvariantFeatures
      (Invariant.pixFlipH Invariant.twoPixelGrid)).get? 18 = some (255 : ℚ) := by
    simp only [Invariant.extractInvariantFeatures]
    rw [c4_enc_flip, c4_center_rot]
    exact c4_avg_rot
  constructor
  · intro h
    rw [h, hbase] at hrot
    exact absurd (Option.some.inj hrot) (by norm_num)
  · intro h
    rw [h, hbase] at hflip
    exact absurd (Option.some.inj hflip) (by norm_num)

end PixelSpace.Claims

namespace PixelSpace.Claims

open PixelSpace PixelSpace.Palette PixelSpace.Invariant

/-- `rotate90` at size 16 is the index rearrangement by `rIdx`. -/
theorem rot_applyIdx (p : List (Option ℚ)) : rotate90 p 16 = applyIdx rIdx p := by
  rw [rotate90, applyIdx, show (16 : ℕ) * 16 = 256 from rfl]
  refine List.map_congr_left ?_
  intro k hk
  rw [List.mem_range] at hk
  dsimp only
  simp only [Nat.cast_ofNat]
  have he : ((16 : ℤ) - 1 - ((k % 16 : ℕ) : ℤ)) * 16 + ((k / 16 : ℕ) : ℤ) =
      ((rIdx k : ℕ) : ℤ) := by
    unfold rIdx; omega
  rw [he]

/-- `flipH` at size 16 is the index rearrangement by `fIdx`. -/
theorem flip_applyIdx (p : List (Option ℚ)) : flipH p 16 = applyIdx fIdx p := by
  rw [flipH, applyIdx, show (16 : ℕ) * 16 = 256 from rfl]
  refine List.map_congr_left ?_
  intro k hk
  rw [List.mem_range] at hk
  dsimp only
  simp only [Nat.cast_ofNat]
  have he : ((k / 16 : ℕ) : ℤ) * 16 + ((16 : ℤ) - 1 - ((k % 16 : ℕ) : ℤ)) =
      ((fIdx k : ℕ) : ℤ) := by
    unfold fIdx; omega
  rw [he]

/-- Composition of index rearrangements. -/
theorem applyIdx_comp (σ τ : ℕ → ℕ) (hσ : ∀ k < 256, σ k < 256)
    (p : List (Option ℚ)) :
    applyIdx σ (applyIdx τ p) = applyIdx (fun k => τ (σ k)) p := by
  simp only [applyIdx]
  refine List.map_congr_left ?_
  intro k hk
  rw [List.mem_range] at hk
  rw [zget_range_map _ 256 (σ k) (hσ k hk)]
  rfl

/-- Composing `rIdx` on the outside. -/
theorem applyIdx_comp_r (σ : ℕ → ℕ) (p : List (Option ℚ)) :
    applyIdx rIdx (applyIdx σ p) = applyIdx (fun k => σ (rIdx k)) p :=
  applyIdx_comp rIdx σ (by decide) p

/-- Composing `fIdx` on the outside. -/
theorem applyIdx_comp_f (σ : ℕ → ℕ) (p : List (Option ℚ)) :
    applyIdx fIdx (applyIdx σ p) = applyIdx (fun k => σ (fIdx k)) p :=
  applyIdx_comp fIdx σ (by decide) p

/-- Index rearrangements agreeing on the grid agree. -/
theorem applyIdx_congr (σ τ : ℕ → ℕ) (h : ∀ k < 256, σ k = τ k)
    (p : List (Option ℚ)) : applyIdx σ p = applyIdx τ p := by
  simp only [applyIdx]
  refine List.map_congr_left ?_
  intro k hk
  rw [List.mem_range] at hk
  rw [h k hk]

/-- The identity rearrangement of a full grid. -/
theorem applyIdx_id (p : List (Option ℚ)) (hp : p.length = 256) :
    applyIdx (fun k => k) p = p := by
  apply List.ext_getElem?
  intro n
  rw [applyIdx]
  by_cases hn : n < 256
  · rw [List.getElem?_map, List.getElem?_range hn]
    simp only [Option.map_some']
    have hn' : n < p.length := by omega
    rw [zget_natCast, List.get?_eq_getElem?, List.getElem?_eq_getElem hn']
    rfl
  · rw [List.getElem?_eq_none (by simpa using hn),
      List.getElem?_eq_none (by omega)]

end PixelSpace.Claims

namespace PixelSpace.Claims

open PixelSpace PixelSpace.Palette PixelSpace.Invariant

/-- Four 90° rotations restore a full 16×16 grid. -/
theorem rot4 (g : List (Option ℚ)) (hg : g.length = 256) :
    rotate90 (rotate90 (rotate90 (rotate90 g 16) 16) 16) 16 = g := by
  simp only [rot_applyIdx, applyIdx_comp_r]
  exact (applyIdx_congr _ (fun k => k) (by decide) g).trans (applyIdx_id g hg)

/-- The orientation-averaging stage is invariant under rotating the centred
grid: the 8 variants are permuted, and the elementwise average is
unchanged. -/
theorem avgOfVariants_rot (g : List (Option ℚ)) (hg : g.length = 256) :
    avgOfVariants (rotate90 g 16) = avgOfVariants g := by
  have h4 := rot4 g hg
  simp only [avgOfVariants, getAllVariants, GRID_SIZE, List.map_cons,
    List.map_nil, osum, List.foldl_cons, List.foldl_nil]
  refine List.map_congr_left ?_
  intro i _
  rw [h4]
  ac_rfl

/-- The orientation-averaging stage is invariant under flipping the centred
grid. -/
theorem avgOfVariants_flip (g : List (Option ℚ)) (hg : g.length = 256) :
    avgOfVariants (flipH g 16) = avgOfVariants g := by
  have h1 : flipH (flipH g 16) 16 = g := by
    simp only [flip_applyIdx, applyIdx_comp_f]
    exact (applyIdx_congr _ (fun k => k) (by decide) g).trans (applyIdx_id g hg)
  have h2 : rotate90 (flipH g 16) 16 =
      flipH (rotate90 (rotate90 (rotate90 g 16) 16) 16) 16 := by
    simp only [rot_applyIdx, flip_applyIdx, applyIdx_comp_r, applyIdx_comp_f]
    exact applyIdx_congr _ _ (by decide) g
  have h3 : flipH (rotate90 (flipH g 16) 16) 16 =
      rotate90 (rotate90 (rotate90 g 16) 16) 16 := by
    simp only [rot_applyIdx, flip_applyIdx, applyIdx_comp_r, applyIdx_comp_f]
    exact applyIdx_congr _ _ (by decide) g
  have h4 : rotate90 (rotate90 (flipH g 16) 16) 16 =
      flipH (rotate90 (rotate90 g 16) 16) 16 := by
    simp only [rot_applyIdx, flip_applyIdx, applyIdx_comp_r, applyIdx_comp_f]
    exact applyIdx_congr _ _ (by decide) g
  have h5 : flipH (rotate90 (rotate90 (flipH g 16) 16) 16) 16 =
      rotate90 (rotate90 g 16) 16 := by
    simp only [rot_applyIdx, flip_applyIdx, applyIdx_comp_r, applyIdx_comp_f]
    exact applyIdx_congr _ _ (by decide) g
  have h6 : rotate90 (rotate90 (rotate90 (flipH g 16) 16) 16) 16 =
      flipH (rotate90 g 16) 16 := by
    simp only [rot_applyIdx, flip_applyIdx, applyIdx_comp_r, applyIdx_comp_f]
    exact applyIdx_congr _ _ (by decide) g
  have h7 : flipH (rotate90 (rotate90 (rotate90 (flipH g 16) 16) 16) 16) 16 =
      rotate90 g 16 := by
    simp only [rot_applyIdx, flip_applyIdx, applyIdx_comp_r, applyIdx_comp_f]
    exact applyIdx_congr _ _ (by decide) g
  simp only [avgOfVariants, getAllVariants, GRID_SIZE, List.map_cons,
    List.map_nil, osum, List.foldl_cons, List.foldl_nil]
  refine List.map_congr_left ?_
  intro i _
  rw [h7, h6, h5, h4, h3, h2, h1]
  ac_rfl

end PixelSpace.Claims

namespace PixelSpace.Claims

open PixelSpace PixelSpace.Palette PixelSpace.Invariant

/-- An in-range read returns a member of the list. -/
theorem zget_mem {α : Type} {l : List α} {i : ℤ} {a : α}
    (h : zget l i = some a) : a ∈ l := by
  rw [zget] at h
  split_ifs at h with hc
  injection h with h2
  exact h2 ▸ List.get_mem l i.toNat hc.2

/-- Translating valid colour-index pixels and then encoding equals
translating the encoded grid. -/
theorem encTranslate (p : List ℤ) (dx dy : ℤ)
    (hval : ∀ v ∈ p, 0 ≤ v ∧ v ≤ 7) :
    pixelsToEncodedValues (pixTranslate dx dy p) =
      encShift dx dy (pixelsToEncodedValues p) := by
  have hleg : isLegacyBWFormat p = false := by
    rw [isLegacyBWFormat, List.any_eq_false]
    intro v hv
    simpa using (hval v hv).2
  have hlegT : isLegacyBWFormat (pixTranslate dx dy p) = false := by
    rw [isLegacyBWFormat, List.any_eq_false]
    intro v hv
    simp only [pixTranslate, List.mem_map, List.mem_range] at hv
    obtain ⟨k, hk, hkv⟩ := hv
    split_ifs at hkv with hc
    · cases hz : zget p ((((k / 16 : ℕ) : ℤ) - dy) * 16 + (((k % 16 : ℕ) : ℤ) - dx)) with
      | none => rw [hz] at hkv; simp [← hkv, COLOR_WHITE]
      | some w =>
        rw [hz] at hkv
        simp only [Option.getD_some] at hkv
        simpa [← hkv] using (hval w (zget_mem hz)).2
    · simp [← hkv, COLOR_WHITE]
  simp only [pixelsToEncodedValues, hleg, hlegT, Bool.false_eq_true, if_false]
  rw [pixTranslate, encShift, List.map_map]
  refine List.map_congr_left ?_
  intro k hk
  rw [List.mem_range] at hk
  simp only [Function.comp]
  split_ifs with hc
  · rw [zget_map]
    cases hz : zget p ((((k / 16 : ℕ) : ℤ) - dy) * 16 + (((k % 16 : ℕ) : ℤ) - dx)) with
    | none => simp [COLOR_WHITE]; rfl
    | some w => simp
  · rfl

end PixelSpace.Claims

namespace PixelSpace.Claims

open PixelSpace PixelSpace.Palette PixelSpace.Invariant

/-- `totalWeight` as an integer indicator sum over flat indices. -/
theorem totalWeight_eq_sum (enc : List ℚ) :
    (totalWeight enc : ℤ) = ∑ k ∈ Finset.range 256,
      (if zget enc (k : ℤ) ≠ some 255 then (1 : ℤ) else 0) := by
  rw [totalWeight, listSum_range, Nat.cast_sum]
  refine Finset.sum_congr rfl ?_
  intro k hk
  rw [Finset.mem_range] at hk
  rw [cellWeight]
  have he : ((k / 16 : ℕ) : ℤ) * 16 + ((k % 16 : ℕ) : ℤ) = (k : ℤ) := by omega
  rw [he]
  split_ifs <;> simp

/-- `sumX` as an integer sum over flat indices. -/
theorem sumX_eq_sum (enc : List ℚ) :
    (sumX enc : ℤ) = ∑ k ∈ Finset.range 256, ((k % 16 : ℕ) : ℤ) *
      (if zget enc (k : ℤ) ≠ some 255 then (1 : ℤ) else 0) := by
  rw [sumX, listSum_range, Nat.cast_sum]
  refine Finset.sum_congr rfl ?_
  intro k hk
  rw [Finset.mem_range] at hk
  rw [cellWeight]
  have he : ((k / 16 : ℕ) : ℤ) * 16 + ((k % 16 : ℕ) : ℤ) = (k : ℤ) := by omega
  rw [he]
  split_ifs <;> simp

/-- `sumY` as an integer sum over flat indices. -/
theorem sumY_eq_sum (enc : List ℚ) :
    (sumY enc : ℤ) = ∑ k ∈ Finset.range 256, ((k / 16 : ℕ) : ℤ) *
      (if zget enc (k : ℤ) ≠ some 255 then (1 : ℤ) else 0) := by
  rw [sumY, listSum_range, Nat.cast_sum]
  refine Finset.sum_congr rfl ?_
  intro k hk
  rw [Finset.mem_range] at hk
  rw [cellWeight]
  have he : ((k / 16 : ℕ) : ℤ) * 16 + ((k % 16 : ℕ) : ℤ) = (k : ℤ) := by omega
  rw [he]
  split_ifs <;> simp

/-- Reindexing an indicator-weighted sum along a content-preserving
translation of the encoded grid. -/
theorem sum_encShift (enc : List ℚ) (dx dy : ℤ) (hlen : enc.length = 256)
    (F : ℕ → ℤ)
    (hbound : ∀ s : ℕ, s < 256 → zget enc (s : ℤ) ≠ some 255 →
      0 ≤ ((s % 16 : ℕ) : ℤ) + dx ∧ ((s % 16 : ℕ) : ℤ) + dx < 16 ∧
      0 ≤ ((s / 16 : ℕ) : ℤ) + dy ∧ ((s / 16 : ℕ) : ℤ) + dy < 16) :
    (∑ k ∈ Finset.range 256, F k *
        (if zget (encShift dx dy enc) (k : ℤ) ≠ some 255 then (1 : ℤ) else 0)) =
      ∑ s ∈ Finset.range 256,
        F (((((s / 16 : ℕ) : ℤ) + dy) * 16 + (((s % 16 : ℕ) : ℤ) + dx)).toNat) *
          (if zget enc (s : ℤ) ≠ some 255 then (1 : ℤ) else 0) := by
  have key : ∀ k ∈ Finset.range 256, F k *
      (if zget (encShift dx dy enc) (k : ℤ) ≠ some 255 then (1 : ℤ) else 0) =
      if 0 ≤ ((k % 16 : ℕ) : ℤ) - dx ∧ ((k % 16 : ℕ) : ℤ) - dx < 16 ∧
          0 ≤ ((k / 16 : ℕ) : ℤ) - dy ∧ ((k / 16 : ℕ) : ℤ) - dy < 16 then
        F k * (if zget enc ((((k / 16 : ℕ) : ℤ) - dy) * 16 +
          (((k % 16 : ℕ) : ℤ) - dx)) ≠ some 255 then (1 : ℤ) else 0)
      else 0 := by
    intro k hk
    rw [Finset.mem_range] at hk
    rw [encShift, zget_range_map _ 256 k hk]
    dsimp only
    by_cases hc : 0 ≤ ((k % 16 : ℕ) : ℤ) - dx ∧ ((k % 16 : ℕ) : ℤ) - dx < 16 ∧
        0 ≤ ((k / 16 : ℕ) : ℤ) - dy ∧ ((k / 16 : ℕ) : ℤ) - dy < 16
    · rw [if_pos hc, if_pos hc]
      obtain ⟨v, hz⟩ : ∃ v, zget enc ((((k / 16 : ℕ) : ℤ) - dy) * 16 +
          (((k % 16 : ℕ) : ℤ) - dx)) = some v :=
        ⟨_, by rw [zget, dif_pos ⟨by omega, by rw [hlen]; omega⟩]⟩
      rw [hz]
      simp only [Option.getD_some]
    · rw [if_neg hc, if_neg hc]
      simp
  rw [Finset.sum_congr rfl key]
  have key2 : ∀ s ∈ Finset.range 256,
      F (((((s / 16 : ℕ) : ℤ) + dy) * 16 + (((s % 16 : ℕ) : ℤ) + dx)).toNat) *
        (if zget enc (s : ℤ) ≠ some 255 then (1 : ℤ) else 0) =
      if 0 ≤ ((s % 16 : ℕ) : ℤ) + dx ∧ ((s % 16 : ℕ) : ℤ) + dx < 16 ∧
          0 ≤ ((s / 16 : ℕ) : ℤ) + dy ∧ ((s / 16 : ℕ) : ℤ) + dy < 16 then
        F (((((s / 16 : ℕ) : ℤ) + dy) * 16 + (((s % 16 : ℕ) : ℤ) + dx)).toNat) *
          (if zget enc (s : ℤ) ≠ some 255 then (1 : ℤ) else 0)
      else 0 := by
    intro s hs
    rw [Finset.mem_range] at hs
    by_cases hw : zget enc (s : ℤ) ≠ some 255
    · rw [if_pos (hbound s hs hw)]
    · rw [if_neg hw]
      by_cases hq : 0 ≤ ((s % 16 : ℕ) : ℤ) + dx ∧ ((s % 16 : ℕ) : ℤ) + dx < 16 ∧
          0 ≤ ((s / 16 : ℕ) : ℤ) + dy ∧ ((s / 16 : ℕ) : ℤ) + dy < 16 <;>
        simp [hq]
  rw [Finset.sum_congr rfl key2]
  rw [← Finset.sum_filter, ← Finset.sum_filter]
  refine Finset.sum_nbij'
    (fun k => ((((k / 16 : ℕ) : ℤ) - dy) * 16 + (((k % 16 : ℕ) : ℤ) - dx)).toNat)
    (fun s => ((((s / 16 : ℕ) : ℤ) + dy) * 16 + (((s % 16 : ℕ) : ℤ) + dx)).toNat)
    ?_ ?_ ?_ ?_ ?_
  · intro k hk
    simp only [Finset.mem_filter, Finset.mem_range] at hk ⊢
    omega
  · intro s hs
    simp only [Finset.mem_filter, Finset.mem_range] at hs ⊢
    omega
  · intro k hk
    simp only [Finset.mem_filter, Finset.mem_range] at hk
    dsimp only
    omega
  · intro s hs
    simp only [Finset.mem_filter, Finset.mem_range] at hs
    dsimp only
    omega
  · intro k hk
    simp only [Finset.mem_filter, Finset.mem_range] at hk
    dsimp only
    have h2 : ((((((k / 16 : ℕ) : ℤ) - dy) * 16 +
        (((k % 16 : ℕ) : ℤ) - dx)).toNat : ℕ) : ℤ) =
        (((k / 16 : ℕ) : ℤ) - dy) * 16 + (((k % 16 : ℕ) : ℤ) - dx) := by
      omega
    rw [h2]
    congr 2
    omega

end PixelSpace.Claims

namespace PixelSpace.Claims

open PixelSpace PixelSpace.Palette PixelSpace.Invariant

/-- A content-preserving translation keeps the total centre-of-mass
weight. -/
theorem totalWeight_encShift (enc : List ℚ) (dx dy : ℤ) (hlen : enc.length = 256)
    (hbound : ∀ s : ℕ, s < 256 → zget enc (s : ℤ) ≠ some 255 →
      0 ≤ ((s % 16 : ℕ) : ℤ) + dx ∧ ((s % 16 : ℕ) : ℤ) + dx < 16 ∧
      0 ≤ ((s / 16 : ℕ) : ℤ) + dy ∧ ((s / 16 : ℕ) : ℤ) + dy < 16) :
    totalWeight (encShift dx dy enc) = totalWeight enc := by
  have h := sum_encShift enc dx dy hlen (fun _ => 1) hbound
  simp only [one_mul] at h
  have h1 := totalWeight_eq_sum (encShift dx dy enc)
  have h2 := totalWeight_eq_sum enc
  omega

/-- A content-preserving translation moves `sumX` by `dx` per content
cell. -/
theorem sumX_encShift (enc : List ℚ) (dx dy : ℤ) (hlen : enc.length = 256)
    (hbound : ∀ s : ℕ, s < 256 → zget enc (s : ℤ) ≠ some 255 →
      0 ≤ ((s % 16 : ℕ) : ℤ) + dx ∧ ((s % 16 : ℕ) : ℤ) + dx < 16 ∧
      0 ≤ ((s / 16 : ℕ) : ℤ) + dy ∧ ((s / 16 : ℕ) : ℤ) + dy < 16) :
    (sumX (encShift dx dy enc) : ℤ) = sumX enc + dx * totalWeight enc := by
  have h := sum_encShift enc dx dy hlen (fun k => ((k % 16 : ℕ) : ℤ)) hbound
  rw [sumX_eq_sum (encShift dx dy enc), h]
  have key : ∀ s ∈ Finset.range 256,
      (((((((s / 16 : ℕ) : ℤ) + dy) * 16 + (((s % 16 : ℕ) : ℤ) + dx)).toNat %
          16 : ℕ) : ℤ)) *
        (if zget enc (s : ℤ) ≠ some 255 then (1 : ℤ) else 0) =
      (((s % 16 : ℕ) : ℤ) + dx) *
        (if zget enc (s : ℤ) ≠ some 255 then (1 : ℤ) else 0) := by
    intro s hs
    rw [Finset.mem_range] at hs
    by_cases hw : zget enc (s : ℤ) ≠ some 255
    · obtain ⟨b1, b2, b3, b4⟩ := hbound s hs hw
      rw [if_pos hw]
      congr 1
      omega
    · rw [if_neg hw]
      simp
  rw [Finset.sum_congr rfl key]
  simp only [add_mul, Finset.sum_add_distrib]
  rw [sumX_eq_sum enc, totalWeight_eq_sum enc, ← Finset.mul_sum]

/-- A content-preserving translation moves `sumY` by `dy` per content
cell. -/
theorem sumY_encShift (enc : List ℚ) (dx dy : ℤ) (hlen : enc.length = 256)
    (hbound : ∀ s : ℕ, s < 256 → zget enc (s : ℤ) ≠ some 255 →
      0 ≤ ((s % 16 : ℕ) : ℤ) + dx ∧ ((s % 16 : ℕ) : ℤ) + dx < 16 ∧
      0 ≤ ((s / 16 : ℕ) : ℤ) + dy ∧ ((s / 16 : ℕ) : ℤ) + dy < 16) :
    (sumY (encShift dx dy enc) : ℤ) = sumY enc + dy * totalWeight enc := by
  have h := sum_encShift enc dx dy hlen (fun k => ((k / 16 : ℕ) : ℤ)) hbound
  rw [sumY_eq_sum (encShift dx dy enc), h]
  have key : ∀ s ∈ Finset.range 256,
      (((((((s / 16 : ℕ) : ℤ) + dy) * 16 + (((s % 16 : ℕ) : ℤ) + dx)).toNat /
          16 : ℕ) : ℤ)) *
        (if zget enc (s : ℤ) ≠ some 255 then (1 : ℤ) else 0) =
      (((s / 16 : ℕ) : ℤ) + dy) *
        (if zget enc (s : ℤ) ≠ some 255 then (1 : ℤ) else 0) := by
    intro s hs
    rw [Finset.mem_range] at hs
    by_cases hw : zget enc (s : ℤ) ≠ some 255
    · obtain ⟨b1, b2, b3, b4⟩ := hbound s hs hw
      rw [if_pos hw]
      congr 1
      omega
    · rw [if_neg hw]
      simp
  rw [Finset.sum_congr rfl key]
  simp only [add_mul, Finset.sum_add_distrib]
  rw [sumY_eq_sum enc, totalWeight_eq_sum enc, ← Finset.mul_sum]

end PixelSpace.Claims

namespace PixelSpace.Claims

open PixelSpace PixelSpace.Palette PixelSpace.Invariant

/-- `jsRound` commutes with subtracting an integer. -/
theorem jsRound_sub_int (q : ℚ) (n : ℤ) : jsRound (q - n) = jsRound q - n := by
  rw [jsRound_eq_floor, jsRound_eq_floor]
  have he : q - n + 1/2 = (q + 1/2) - n := by ring
  rw [he, Int.floor_sub_int]

/-- Composing the white-fill shift loop with a content-preserving encoded
translation collapses to a single shift. -/
theorem shiftGrid_encShift (enc : List ℚ) (dx dy sx sy : ℤ)
    (hlen : enc.length = 256)
    (hbound : ∀ s : ℕ, s < 256 → zget enc (s : ℤ) ≠ some 255 →
      0 ≤ ((s % 16 : ℕ) : ℤ) + dx ∧ ((s % 16 : ℕ) : ℤ) + dx < 16 ∧
      0 ≤ ((s / 16 : ℕ) : ℤ) + dy ∧ ((s / 16 : ℕ) : ℤ) + dy < 16) :
    shiftGrid (sx - dx) (sy - dy) (encShift dx dy enc) = shiftGrid sx sy enc := by
  rw [shiftGrid, shiftGrid]
  refine List.map_congr_left ?_
  intro k hk
  rw [List.mem_range] at hk
  dsimp only
  by_cases hc1 : 0 ≤ ((k % 16 : ℕ) : ℤ) - (sx - dx) ∧
      ((k % 16 : ℕ) : ℤ) - (sx - dx) < 16 ∧
      0 ≤ ((k / 16 : ℕ) : ℤ) - (sy - dy) ∧ ((k / 16 : ℕ) : ℤ) - (sy - dy) < 16
  · by_cases hc2 : 0 ≤ ((k % 16 : ℕ) : ℤ) - sx ∧ ((k % 16 : ℕ) : ℤ) - sx < 16 ∧
        0 ≤ ((k / 16 : ℕ) : ℤ) - sy ∧ ((k / 16 : ℕ) : ℤ) - sy < 16
    · rw [if_pos hc1, if_pos hc2, encShift,
        zget_range_map_int _ 256 _ (by omega) (by push_cast; omega)]
      dsimp only
      rw [if_pos (by constructor; · omega
                     constructor; · omega
                     constructor <;> omega)]
      have hfl : (((((((k / 16 : ℕ) : ℤ) - (sy - dy)) * 16 +
          (((k % 16 : ℕ) : ℤ) - (sx - dx))).toNat / 16 : ℕ) : ℤ) - dy) * 16 +
          (((((((k / 16 : ℕ) : ℤ) - (sy - dy)) * 16 +
          (((k % 16 : ℕ) : ℤ) - (sx - dx))).toNat % 16 : ℕ) : ℤ) - dx) =
          (((k / 16 : ℕ) : ℤ) - sy) * 16 + (((k % 16 : ℕ) : ℤ) - sx) := by
        omega
      rw [hfl]
      obtain ⟨v, hz⟩ : ∃ v, zget enc ((((k / 16 : ℕ) : ℤ) - sy) * 16 +
          (((k % 16 : ℕ) : ℤ) - sx)) = some v :=
        ⟨_, by rw [zget, dif_pos ⟨by omega, by rw [hlen]; omega⟩]⟩
      rw [hz]
      rfl
    · rw [if_pos hc1, if_neg hc2, encShift,
        zget_range_map_int _ 256 _ (by omega) (by push_cast; omega)]
      dsimp only
      rw [if_neg (by omega)]
  · by_cases hc2 : 0 ≤ ((k % 16 : ℕ) : ℤ) - sx ∧ ((k % 16 : ℕ) : ℤ) - sx < 16 ∧
        0 ≤ ((k / 16 : ℕ) : ℤ) - sy ∧ ((k / 16 : ℕ) : ℤ) - sy < 16
    · rw [if_neg hc1, if_pos hc2]
      by_cases hz : zget enc ((((k / 16 : ℕ) : ℤ) - sy) * 16 +
          (((k % 16 : ℕ) : ℤ) - sx)) = some 255
      · rw [hz]
      · exfalso
        have hcast : (((((((k / 16 : ℕ) : ℤ) - sy) * 16 +
            (((k % 16 : ℕ) : ℤ) - sx)).toNat : ℕ) : ℤ)) =
            (((k / 16 : ℕ) : ℤ) - sy) * 16 + (((k % 16 : ℕ) : ℤ) - sx) := by
          omega
        have hb := hbound ((((k / 16 : ℕ) : ℤ) - sy) * 16 +
            (((k % 16 : ℕ) : ℤ) - sx)).toNat (by omega) (by rw [hcast]; exact hz)
        omega
    · rw [if_neg hc1, if_neg hc2]

end PixelSpace.Claims

namespace PixelSpace.Claims

open PixelSpace PixelSpace.Palette PixelSpace.Invariant

/-- Centring after a content-preserving encoded translation equals centring
the original: the centre of mass moves by exactly the translation vector,
and the integer shift compensates it. -/
theorem centerDrawing_encShift (enc : List ℚ) (dx dy : ℤ)
    (hlen : enc.length = 256)
    (hbound : ∀ s : ℕ, s < 256 → zget enc (s : ℤ) ≠ some 255 →
      0 ≤ ((s % 16 : ℕ) : ℤ) + dx ∧ ((s % 16 : ℕ) : ℤ) + dx < 16 ∧
      0 ≤ ((s / 16 : ℕ) : ℤ) + dy ∧ ((s / 16 : ℕ) : ℤ) + dy < 16) :
    centerDrawing (encShift dx dy enc) = centerDrawing enc := by
  by_cases h0 : totalWeight enc = 0
  · have hW : ∀ k : ℕ, k < 256 → zget enc (k : ℤ) = some 255 := by
      intro k hk
      by_contra hne
      have h1 := totalWeight_eq_sum enc
      rw [h0] at h1
      have hnn : ∀ i ∈ Finset.range 256,
          (0 : ℤ) ≤ (if zget enc (i : ℤ) ≠ some 255 then (1 : ℤ) else 0) := by
        intro i _
        split_ifs <;> norm_num
      have h2 := (Finset.sum_eq_zero_iff_of_nonneg hnn).mp h1.symm k
        (Finset.mem_range.mpr hk)
      rw [if_pos hne] at h2
      norm_num at h2
    have hEq : encShift dx dy enc = enc := by
      apply List.ext_getElem?
      intro n
      by_cases hn : n < 256
      · rw [encShift, List.getElem?_map, List.getElem?_range hn]
        simp only [Option.map_some']
        have henc : enc[n]? = some 255 := by
          have h5 := hW n hn
          rw [zget_natCast, List.get?_eq_getElem?] at h5
          exact h5
        rw [henc]
        split_ifs with hc
        · have hcast : (((((((n / 16 : ℕ) : ℤ) - dy) * 16 +
              (((n % 16 : ℕ) : ℤ) - dx)).toNat : ℕ) : ℤ)) =
              ((((n / 16 : ℕ) : ℤ) - dy) * 16 + (((n % 16 : ℕ) : ℤ) - dx)) := by
            omega
          have h6 := hW ((((n / 16 : ℕ) : ℤ) - dy) * 16 +
            (((n % 16 : ℕ) : ℤ) - dx)).toNat (by omega)
          rw [hcast] at h6
          rw [h6]
          rfl
        · rfl
      · rw [List.getElem?_eq_none (by simpa using hn),
          List.getElem?_eq_none (by omega)]
    rw [hEq]
  · have ht := totalWeight_encShift enc dx dy hlen hbound
    have hx := sumX_encShift enc dx dy hlen hbound
    have hy := sumY_encShift enc dx dy hlen hbound
    rw [centerDrawing, centerDrawing, if_neg (by rw [ht]; exact h0), if_neg h0]
    dsimp only
    have htQ : ((totalWeight enc : ℕ) : ℚ) ≠ 0 := Nat.cast_ne_zero.mpr h0
    have hxQ : ((sumX (encShift dx dy enc) : ℕ) : ℚ) /
        ((totalWeight (encShift dx dy enc) : ℕ) : ℚ) =
        (sumX enc : ℚ) / (totalWeight enc : ℚ) + (dx : ℚ) := by
      rw [ht]
      have hcast : ((sumX (encShift dx dy enc) : ℕ) : ℚ) =
          (sumX enc : ℚ) + (dx : ℚ) * (totalWeight enc : ℚ) := by
        have := congrArg (fun z : ℤ => (z : ℚ)) hx
        push_cast at this ⊢
        exact this
      rw [hcast, add_div, mul_div_assoc, div_self htQ, mul_one]
    have hyQ : ((sumY (encShift dx dy enc) : ℕ) : ℚ) /
        ((totalWeight (encShift dx dy enc) : ℕ) : ℚ) =
        (sumY enc : ℚ) / (totalWeight enc : ℚ) + (dy : ℚ) := by
      rw [ht]
      have hcast : ((sumY (encShift dx dy enc) : ℕ) : ℚ) =
          (sumY enc : ℚ) + (dy : ℚ) * (totalWeight enc : ℚ) := by
        have := congrArg (fun z : ℤ => (z : ℚ)) hy
        push_cast at this ⊢
        exact this
      rw [hcast, add_div, mul_div_assoc, div_self htQ, mul_one]
    rw [hxQ, hyQ]
    have hjx : jsRound (16 / 2 - ((sumX enc : ℚ) / (totalWeight enc : ℚ) +
        (dx : ℚ))) = jsRound (16 / 2 - (sumX enc : ℚ) / (totalWeight enc : ℚ)) -
        dx := by
      have he : (16 / 2 : ℚ) - ((sumX enc : ℚ) / (totalWeight enc : ℚ) +
          (dx : ℚ)) = (16 / 2 - (sumX enc : ℚ) / (totalWeight enc : ℚ)) -
          ((dx : ℤ) : ℚ) := by
        push_cast
        ring
      rw [he, jsRound_sub_int]
    have hjy : jsRound (16 / 2 - ((sumY enc : ℚ) / (totalWeight enc : ℚ) +
        (dy : ℚ))) = jsRound (16 / 2 - (sumY enc : ℚ) / (totalWeight enc : ℚ)) -
        dy := by
      have he : (16 / 2 : ℚ) - ((sumY enc : ℚ) / (totalWeight enc : ℚ) +
          (dy : ℚ)) = (16 / 2 - (sumY enc : ℚ) / (totalWeight enc : ℚ)) -
          ((dy : ℤ) : ℚ) := by
        push_cast
        ring
      rw [he, jsRound_sub_int]
    rw [hjx, hjy]
    exact shiftGrid_encShift enc dx dy _ _ hlen hbound

end PixelSpace.Claims

namespace PixelSpace.Claims

open PixelSpace PixelSpace.Palette PixelSpace.Invariant

/-- The invariant feature vector is unchanged by a content-preserving
translation of a valid pixel grid. -/
theorem extract_translate (p : List ℤ) (dx dy : ℤ)
    (hlen : p.length = 256)
    (hval : ∀ v ∈ p, 0 ≤ v ∧ v ≤ 7)
    (hbound : ∀ s : ℕ, s < 256 →
      zget (pixelsToEncodedValues p) (s : ℤ) ≠ some 255 →
      0 ≤ ((s % 16 : ℕ) : ℤ) + dx ∧ ((s % 16 : ℕ) : ℤ) + dx < 16 ∧
      0 ≤ ((s / 16 : ℕ) : ℤ) + dy ∧ ((s / 16 : ℕ) : ℤ) + dy < 16) :
    extractInvariantFeatures (pixTranslate dx dy p) =
      extractInvariantFeatures p := by
  simp only [extractInvariantFeatures]
  rw [encTranslate p dx dy hval,
    centerDrawing_encShift (pixelsToEncodedValues p) dx dy
      (by rw [pixelsToEncodedValues_length, hlen]) hbound]

end PixelSpace.Claims


namespace PixelSpace.Claims

open PixelSpace PixelSpace.Palette PixelSpace.Invariant

/-- C4 (amended): the invariant extractor is translation-invariant — for a
valid 16×16 grid (256 entries, colour indices 0–7) and a translation that
keeps all non-background content inside the grid, the 64-dimensional
feature vector is unchanged; and the orientation-averaging stage
(`avgOfVariants`, applied after centring) is invariant under rotating or
flipping its input grid.  Full rotation/reflection invariance of the
composed pipeline fails (the centroid recentering does not commute with
the orientation transforms; see the counterexample). -/
theorem claim_C4_invariances (p : List ℤ) (dx dy : ℤ) (g : List (Option ℚ))
    (hlen : p.length = 256) (hval : ∀ v ∈ p, 0 ≤ v ∧ v ≤ 7)
    (hbound : ∀ s : ℕ, s < 256 →
      zget (pixelsToEncodedValues p) (s : ℤ) ≠ some 255 →
      0 ≤ ((s % 16 : ℕ) : ℤ) + dx ∧ ((s % 16 : ℕ) : ℤ) + dx < 16 ∧
      0 ≤ ((s / 16 : ℕ) : ℤ) + dy ∧ ((s / 16 : ℕ) : ℤ) + dy < 16)
    (hg : g.length = 256) :
    extractInvariantFeatures (pixTranslate dx dy p) =
        extractInvariantFeatures p ∧
      avgOfVariants (rotate90 g 16) = avgOfVariants g ∧
      avgOfVariants (flipH g 16) = avgOfVariants g :=
  ⟨extract_translate p dx dy hlen hval hbound,
    avgOfVariants_rot g hg, avgOfVariants_flip g hg⟩

/-- C4 amended-theorem witness: the two-black-pixel grid translated by
`(5, 7)` (content stays inside the grid), and a concrete full grid for the
orientation-stage invariances. -/
theorem claim_C4_witness :
    (Invariant.twoPixelGrid.length = 256 ∧
      (∀ v ∈ Invariant.twoPixelGrid, 0 ≤ v ∧ v ≤ 7) ∧
      (∀ s : ℕ, s < 256 →
        zget (pixelsToEncodedValues Invariant.twoPixelGrid) (s : ℤ) ≠
          some 255 →
        0 ≤ ((s % 16 : ℕ) : ℤ) + 5 ∧ ((s % 16 : ℕ) : ℤ) + 5 < 16 ∧
        0 ≤ ((s / 16 : ℕ) : ℤ) + 7 ∧ ((s / 16 : ℕ) : ℤ) + 7 < 16) ∧
      (List.replicate 256 (some (0 : ℚ))).length = 256) ∧
    (extractInvariantFeatures (pixTranslate 5 7 Invariant.twoPixelGrid) =
        extractInvariantFeatures Invariant.twoPixelGrid ∧
      avgOfVariants (rotate90 (List.replicate 256 (some (0 : ℚ))) 16) =
        avgOfVariants (List.replicate 256 (some (0 : ℚ))) ∧
      avgOfVariants (flipH (List.replicate 256 (some (0 : ℚ))) 16) =
        avgOfVariants (List.replicate 256 (some (0 : ℚ)))) := by
  have hb : ∀ s : ℕ, s < 256 →
      zget (pixelsToEncodedValues Invariant.twoPixelGrid) (s : ℤ) ≠ some 255 →
      0 ≤ ((s % 16 : ℕ) : ℤ) + 5 ∧ ((s % 16 : ℕ) : ℤ) + 5 < 16 ∧
      0 ≤ ((s / 16 : ℕ) : ℤ) + 7 ∧ ((s / 16 : ℕ) : ℤ) + 7 < 16 := by
    intro s hs hne
    rw [c4_enc_base, zget_natCast, lit_get 0 51 s (by norm_num) (by norm_num) hs] at hne
    have hor : s = 0 ∨ s = 51 := by
      by_cases h : s = 0 ∨ s = 51
      · exact h
      · exact absurd (by rw [if_neg h]) hne
    rcases hor with h | h <;> subst h <;> norm_num
  exact ⟨⟨by decide, by decide, hb, by decide⟩,
    claim_C4_invariances Invariant.twoPixelGrid 5 7
      (List.replicate 256 (some (0 : ℚ))) (by decide) (by decide) hb
      (by decide)⟩

end PixelSpace.Claims
